import Mathlib

/-
Verification of the query/filter/ranking engine of ama-employees-ai-agent
(pkg/tools/json/json_query.go), shallowly embedded in Lean 4.

Modelling conventions:
- Go strings are modelled as Lean `String` at the character level; all the
  string constants involved are ASCII, where Go's byte-level operations
  (strings.Contains, len, strings.ToLower, strings.Fields) agree with the
  character-level model.
- gojsonq v2 is an external library; its documented operator semantics are
  modelled directly: `Where("deactivated", "=", b)` keeps, in order, the
  records whose flag equals b; `OrWhere(f1, "contains", w1).OrWhere(f2,
  "contains", w2)` keeps the records satisfying either condition, where the
  `contains` operator is a case-insensitive substring test (gojsonq's
  `strictContains` is the case-sensitive variant); `Reset` drops all pending
  conditions and restores the full original collection.
- encoding/json round-trips are modelled by `RawRecord`: a record as it sits
  in the raw JSON document, carrying the fields the engine queries plus a
  `decodeOk` flag saying whether the record unmarshals into
  model.EmployeeInfo; `json.Unmarshal` of a list fails iff some element
  fails, which is `decodeAll`.
- `sort.Slice` is Go's unstable pattern-defeating quicksort (pdqsort,
  sort/zsortfunc.go); it is embedded operationally below as `sortSlice`,
  threading the list through the same index/swap steps as the Go code.
-/

/-- One character of Go's ASCII whitespace set used by strings.Fields
(unicode.IsSpace restricted to ASCII). -/
def isGoSpace (c : Char) : Bool :=
  c = ' ' || c = '\t' || c = '\n' || c = '\x0b' || c = '\x0c' || c = '\r'

/-- strings.ToLower, at the ASCII level. -/
def goToLower (s : String) : String :=
  ⟨s.data.map Char.toLower⟩

/-- strings.Contains: `goContains s sub` is true iff sub occurs inside s. -/
def goContains (s sub : String) : Bool :=
  decide (List.IsInfix sub.data s.data)

/-- Accumulator worker for strings.Fields. -/
def fieldsAux : List Char → List Char → List String
  | [], acc => if acc.isEmpty then [] else [⟨acc.reverse⟩]
  | c :: cs, acc =>
    if isGoSpace c then
      if acc.isEmpty then fieldsAux cs [] else ⟨acc.reverse⟩ :: fieldsAux cs []
    else
      fieldsAux cs (c :: acc)

/-- strings.Fields: split around runs of whitespace, dropping empties. -/
def goFields (s : String) : List String :=
  fieldsAux s.data []

/-- Decimal value of a digit character. -/
def digitVal (c : Char) : Nat := c.toNat - 48

/-- Worker for strconv.Atoi: consume decimal digits, failing on any
non-digit character. -/
def digitsValAux : List Char → Nat → Option Nat
  | [], acc => some acc
  | c :: cs, acc =>
    if c.isDigit then digitsValAux cs (acc * 10 + digitVal c) else none

/-- strconv.Atoi: optional sign, then a non-empty run of decimal digits,
rejecting values outside the int64 range. -/
def goAtoi (s : String) : Option Int :=
  let core : List Char → Bool → Option Int := fun ds neg =>
    match ds with
    | [] => none
    | _ =>
      match digitsValAux ds 0 with
      | none => none
      | some n =>
        let v : Int := if neg then -(n : Int) else (n : Int)
        if v < -(2 : Int) ^ 63 || v > (2 : Int) ^ 63 - 1 then none else some v
  match s.data with
  | '+' :: ds => core ds false
  | '-' :: ds => core ds true
  | ds => core ds false

/-- Gregorian leap-year test, as in Go's time package. -/
def isLeap (y : Nat) : Bool :=
  y % 4 = 0 && (y % 100 ≠ 0 || y % 400 = 0)

/-- Days in a month, as in Go's time package daysIn. -/
def daysIn (y m : Nat) : Nat :=
  if m = 2 then (if isLeap y then 29 else 28)
  else if m = 4 || m = 6 || m = 9 || m = 11 then 30
  else 31

/-- time.Parse("2006-01-02", s): exactly four year digits, a dash, two month
digits, a dash, two day digits, nothing else; the month must be 1..12 and
the day must exist in that month.  The result is encoded as
y*10000 + m*100 + d, whose usual order on Nat is the chronological order of
the parsed instants (UTC midnights), so time.After is > on the encoding. -/
def goParseDate (s : String) : Option Nat :=
  match s.data with
  | [y1, y2, y3, y4, '-', m1, m2, '-', d1, d2] =>
    if y1.isDigit && y2.isDigit && y3.isDigit && y4.isDigit &&
       m1.isDigit && m2.isDigit && d1.isDigit && d2.isDigit then
      let y := ((digitVal y1 * 10 + digitVal y2) * 10 + digitVal y3) * 10 + digitVal y4
      let m := digitVal m1 * 10 + digitVal m2
      let d := digitVal d1 * 10 + digitVal d2
      if 1 ≤ m ∧ m ≤ 12 ∧ 1 ≤ d ∧ d ≤ daysIn y m then
        some (y * 10000 + m * 100 + d)
      else none
    else none
  | _ => none

/-- model.EmployeeInfo (pkg/model/employee.go). -/
structure EmployeeInfo where
  FirstName : String
  LastName : String
  Email : String
  Title : String
  Deactivated : Bool
  DeactivatedDate : String
deriving DecidableEq, Repr, Inhabited

/-- A record of the raw JSON document: the typed fields the engine queries,
plus whether the record unmarshals into model.EmployeeInfo (a record whose
name/status fields are fine can still fail to decode if another field has
the wrong shape). -/
structure RawRecord where
  info : EmployeeInfo
  decodeOk : Bool
deriving DecidableEq, Repr, Inhabited

/-- json.Unmarshal of a filtered result list into []model.EmployeeInfo:
fails iff some record fails to decode. -/
def decodeAll (l : List RawRecord) : Option (List EmployeeInfo) :=
  if l.all (fun r => r.decodeOk) then some (l.map (fun r => r.info)) else none

/-- The status filter selected by ProcessQuery (json_query.go lines 41-47). -/
inductive StatusFilter where
  | all
  | active
  | deactivated
deriving DecidableEq, Repr

/-- ProcessQuery lines 41-47: the deactivation stems take precedence over
"active"; q is the already lower-cased query. -/
def statusFilterOf (q : String) : StatusFilter :=
  if goContains q "deactivat" || goContains q "terminat" then .deactivated
  else if goContains q "active" && !goContains q "deactivat" then .active
  else .all

/-- gojsonq Where("deactivated", "=", _): keep matching records in order. -/
def filterByStatus (f : StatusFilter) (coll : List RawRecord) : List RawRecord :=
  match f with
  | .all => coll
  | .active => coll.filter (fun r => !r.info.Deactivated)
  | .deactivated => coll.filter (fun r => r.info.Deactivated)

/-- The comparator passed to sort.Slice (json_query.go lines 76-107):
descending by deactivated_date, empty dates never first, unparseable dates
before empty but after parseable ones. -/
def lessDeactivatedDate (ei ej : EmployeeInfo) : Bool :=
  let dateI := ei.DeactivatedDate
  let dateJ := ej.DeactivatedDate
  if dateI = "" ∧ dateJ = "" then false
  else if dateI = "" then false
  else if dateJ = "" then true
  else
    match goParseDate dateI, goParseDate dateJ with
    | none, none => false
    | none, some _ => false
    | some _, none => true
    | some ti, some tj => decide (tj < ti)

/-- The sort key implicitly implemented by the comparator: parseable dates,
most recent first; then unparseable non-empty dates; then empty dates. -/
def dateKey (e : EmployeeInfo) : Int :=
  if e.DeactivatedDate = "" then 2
  else
    match goParseDate e.DeactivatedDate with
    | none => 1
    | some n => -(n : Int)

/-
The embedding of Go's sort.Slice (sort.go Slice + sort/zsortfunc.go, Go
1.21): pattern-defeating quicksort over index-based Less/Swap.  The slice
is threaded as a `List`; every data mutation of the Go code is an `lswap`.
The while loops of the Go code are realised as recursions on an explicit
fuel (or directly on the decreasing loop variable); every fuel passed in
below strictly exceeds the number of iterations the corresponding Go loop
can make on that range, so the embedding computes the same result.
-/

section GoSort

variable {α : Type} [Inhabited α] (less : α → α → Bool)

/-- Read index i of the slice (all accesses of the Go code are in bounds). -/
def lget (l : List α) (i : Nat) : α :=
  (l.get? i).getD default

/-- data.Swap(i, j). -/
def lswap (l : List α) (i j : Nat) : List α :=
  let vi := lget l i
  let vj := lget l j
  (l.set i vj).set j vi

/-- Inner loop of insertionSort: for j := i; j > a && Less(j, j-1); j--. -/
def insInner : List α → Nat → Nat → List α
  | l, _, 0 => l
  | l, a, k + 1 =>
    if a < k + 1 then
      if less (lget l (k + 1)) (lget l k) then insInner (lswap l (k + 1) k) a k
      else l
    else l

/-- Outer loop of insertionSort: for i := a + 1; i < b; i++. -/
def insOuter : Nat → List α → Nat → Nat → Nat → List α
  | 0, l, _, _, _ => l
  | fuel + 1, l, a, i, b =>
    if i < b then insOuter fuel (insInner less l a i) a (i + 1) b else l

/-- insertionSort_func: sorts data[a:b] by adjacent swaps. -/
def insertionSortGo (l : List α) (a b : Nat) : List α :=
  insOuter less b l a (a + 1) b

/-- siftDown_func: implements the heap siftDown from the given root. -/
def siftDownGo : Nat → List α → Nat → Nat → Nat → List α
  | 0, l, _, _, _ => l
  | fuel + 1, l, root, hi, first =>
    let child0 := 2 * root + 1
    if hi ≤ child0 then l
    else
      let child :=
        if child0 + 1 < hi ∧ less (lget l (first + child0)) (lget l (first + child0 + 1)) = true
        then child0 + 1 else child0
      if less (lget l (first + root)) (lget l (first + child)) then
        siftDownGo fuel (lswap l (first + root) (first + child)) child hi first
      else l

/-- heapSort_func build phase: for i := (hi-1)/2; i >= 0; i--. -/
def heapBuild : Nat → List α → Nat → Nat → List α
  | 0, l, _, _ => l
  | c + 1, l, hi, first => heapBuild c (siftDownGo less (hi + 1) l c hi first) hi first

/-- heapSort_func pop phase: for i := hi - 1; i >= 0; i--. -/
def heapPop : Nat → List α → Nat → List α
  | 0, l, _ => l
  | c + 1, l, first =>
    heapPop c (siftDownGo less (c + 2) (lswap l first (first + c)) 0 c first) first

/-- heapSort_func on data[a:b]. -/
def heapSortGo (l : List α) (a b : Nat) : List α :=
  let hi := b - a
  heapPop less hi (heapBuild less ((hi - 1) / 2 + 1) l hi a) a

/-- reverseRange_func on data[a:b]. -/
def revRange : Nat → List α → Nat → Nat → List α
  | 0, l, _, _ => l
  | fuel + 1, l, i, j => if i < j then revRange fuel (lswap l i j) (i + 1) (j - 1) else l

/-- reverseRange_func entry. -/
def reverseRangeGo (l : List α) (a b : Nat) : List α :=
  revRange (b - a) l a (b - 1)

/-- xorshift.Next() on a uint64 state. -/
def xorshiftNext (r : Nat) : Nat :=
  let r1 := (Nat.xor r ((r <<< 13) % 2 ^ 64)) % 2 ^ 64
  let r2 := Nat.xor r1 (r1 >>> 7)
  (Nat.xor r2 ((r2 <<< 17) % 2 ^ 64)) % 2 ^ 64

/-- bits.Len on a non-negative value. -/
def bitsLen (n : Nat) : Nat :=
  if n = 0 then 0 else Nat.log2 n + 1

/-- nextPowerOfTwo from sort/zsortfunc.go. -/
def nextPowerOfTwo (length : Nat) : Nat :=
  1 <<< bitsLen length

/-- breakPatterns_func: xorshift-scramble three slots around the middle of
data[a:b] (only for ranges of length at least 8; the state is seeded with
the length and Next() is called once per swapped slot). -/
def breakPatternsGo (l : List α) (a b : Nat) : List α :=
  let length := b - a
  if 8 ≤ length then
    let modMask := nextPowerOfTwo length - 1
    let mid := a + (length / 4) * 2
    let step := fun (l : List α) (idx r : Nat) =>
      let other0 := Nat.land r modMask
      let other := if length ≤ other0 then other0 - length else other0
      lswap l idx (a + other)
    let r1 := xorshiftNext length
    let l1 := step l (mid - 1) r1
    let r2 := xorshiftNext r1
    let l2 := step l1 mid r2
    let r3 := xorshiftNext r2
    step l2 (mid + 1) r3
  else l

/-- The hints returned by choosePivot_func. -/
inductive SortedHint where
  | increasing
  | decreasing
  | unknown
deriving DecidableEq, Repr

/-- order2_func: order two indices by Less, counting the swap. -/
def order2Go (l : List α) (a b swaps : Nat) : Nat × Nat × Nat :=
  if less (lget l b) (lget l a) then (b, a, swaps + 1) else (a, b, swaps)

/-- median_func: index of the median of three slots, counting swaps. -/
def medianGo (l : List α) (a b c swaps : Nat) : Nat × Nat :=
  let (a1, b1, s1) := order2Go less l a b swaps
  let (b2, _, s2) := order2Go less l b1 c s1
  let (_, b3, s3) := order2Go less l a1 b2 s2
  (b3, s3)

/-- medianAdjacent_func: median of data[a-1], data[a], data[a+1]. -/
def medianAdjGo (l : List α) (a swaps : Nat) : Nat × Nat :=
  medianGo less l (a - 1) a (a + 1) swaps

/-- choosePivot_func: median-of-3 (or ninther for long ranges) with a
sortedness hint derived from the number of inversions seen. -/
def choosePivotGo (l : List α) (a b : Nat) : Nat × SortedHint :=
  let length := b - a
  let i := a + (length / 4) * 1
  let j := a + (length / 4) * 2
  let k := a + (length / 4) * 3
  if 8 ≤ length then
    if 50 ≤ length then
      let (i', s1) := medianAdjGo less l i 0
      let (j', s2) := medianAdjGo less l j s1
      let (k', s3) := medianAdjGo less l k s2
      let (m, s4) := medianGo less l i' j' k' s3
      (m, if s4 = 0 then .increasing else if s4 = 12 then .decreasing else .unknown)
    else
      let (m, s) := medianGo less l i j k 0
      (m, if s = 0 then .increasing else if s = 12 then .decreasing else .unknown)
  else (j, .increasing)

/-- partialInsertionSort_func advance: while i < b && !Less(i, i-1): i++. -/
def advanceI : Nat → List α → Nat → Nat → Nat
  | 0, _, i, _ => i
  | fuel + 1, l, i, b =>
    if i < b ∧ less (lget l i) (lget l (i - 1)) = false then advanceI fuel l (i + 1) b
    else i

/-- partialInsertionSort_func left shift: for j := i-1; j >= 1; j--,
stopping at the first non-inversion (the absolute bound 1 is the Go
code's). -/
def shiftLeftGo : List α → Nat → List α
  | l, 0 => l
  | l, k + 1 =>
    if less (lget l (k + 1)) (lget l k) then shiftLeftGo (lswap l (k + 1) k) k else l

/-- partialInsertionSort_func right shift: for j := i+1; j < b; j++,
stopping at the first non-inversion. -/
def shiftRightGo : Nat → List α → Nat → List α
  | 0, l, _ => l
  | fuel + 1, l, j =>
    if less (lget l j) (lget l (j - 1)) then shiftRightGo fuel (lswap l j (j - 1)) (j + 1)
    else l

/-- partialInsertionSort_func: up to 5 adjacent inversions are repaired;
returns the (possibly modified) slice and whether it ended fully sorted. -/
def pInsLoop : Nat → List α → Nat → Nat → Nat → List α × Bool
  | 0, l, _, _, _ => (l, false)
  | step + 1, l, i, a, b =>
    let i' := advanceI less b l i b
    if i' = b then (l, true)
    else if b - a < 50 then (l, false)
    else
      let l1 := lswap l i' (i' - 1)
      let l2 := if 2 ≤ i' - a then shiftLeftGo less l1 (i' - 1) else l1
      let l3 := if 2 ≤ b - i' then shiftRightGo less (b - (i' + 1)) l2 (i' + 1) else l2
      pInsLoop step l3 i' a b

/-- partialInsertionSort_func entry (maxSteps = 5, i starts at a+1). -/
def pInsSortGo (l : List α) (a b : Nat) : List α × Bool :=
  pInsLoop less 5 l (a + 1) a b

/-- partition_func i-scan: for i <= j && Less(i, a): i++. -/
def partScanI : Nat → List α → Nat → Nat → Nat → Nat
  | 0, _, i, _, _ => i
  | fuel + 1, l, i, j, a =>
    if i ≤ j ∧ less (lget l i) (lget l a) = true then partScanI fuel l (i + 1) j a else i

/-- partition_func j-scan: for i <= j && !Less(j, a): j--. -/
def partScanJ : Nat → List α → Nat → Nat → Nat → Nat
  | 0, _, _, j, _ => j
  | fuel + 1, l, i, j, a =>
    if i ≤ j ∧ less (lget l j) (lget l a) = false then partScanJ fuel l i (j - 1) a else j

/-- partition_func main swap loop (n is scan fuel; the final Swap(j, a)
placing the pivot is performed here). -/
def partLoop : Nat → Nat → List α → Nat → Nat → Nat → List α × Nat × Bool
  | 0, _, l, _, j, a => (lswap l j a, j, false)
  | fuel + 1, n, l, i, j, a =>
    let i' := partScanI less n l i j a
    let j' := partScanJ less n l i' j a
    if j' < i' then (lswap l j' a, j', false)
    else partLoop fuel n (lswap l i' j') (i' + 1) (j' - 1) a

/-- partition_func: Hoare partition of data[a:b] around data[pivot]; returns
the new slice, the final pivot position, and alreadyPartitioned. -/
def partitionGo (l : List α) (a b pivot : Nat) : List α × Nat × Bool :=
  let l0 := lswap l a pivot
  let i0 := partScanI less (b + 1) l0 (a + 1) (b - 1) a
  let j0 := partScanJ less (b + 1) l0 i0 (b - 1) a
  if j0 < i0 then (lswap l0 j0 a, j0, true)
  else partLoop less (b + 1) (b + 1) (lswap l0 i0 j0) (i0 + 1) (j0 - 1) a

/-- partitionEqual_func i-scan: for i <= j && !Less(a, i): i++. -/
def peqScanI : Nat → List α → Nat → Nat → Nat → Nat
  | 0, _, i, _, _ => i
  | fuel + 1, l, i, j, a =>
    if i ≤ j ∧ less (lget l a) (lget l i) = false then peqScanI fuel l (i + 1) j a else i

/-- partitionEqual_func j-scan: for i <= j && Less(a, j): j--. -/
def peqScanJ : Nat → List α → Nat → Nat → Nat → Nat
  | 0, _, _, j, _ => j
  | fuel + 1, l, i, j, a =>
    if i ≤ j ∧ less (lget l a) (lget l j) = true then peqScanJ fuel l i (j - 1) a else j

/-- partitionEqual_func swap loop. -/
def peqLoop : Nat → Nat → List α → Nat → Nat → Nat → List α × Nat
  | 0, _, l, i, _, _ => (l, i)
  | fuel + 1, n, l, i, j, a =>
    let i' := peqScanI less n l i j a
    let j' := peqScanJ less n l i' j a
    if j' < i' then (l, i')
    else peqLoop fuel n (lswap l i' j') (i' + 1) (j' - 1) a

/-- partitionEqual_func: moves the run equal to the pivot to the front of
data[a:b], returning the first index past that run. -/
def partitionEqualGo (l : List α) (a b pivot : Nat) : List α × Nat :=
  let l0 := lswap l a pivot
  peqLoop less (b + 1) (b + 1) l0 (a + 1) (b - 1) a

/-- pdqsort_func: the main loop, with the iteration state (a, b, limit,
wasBalanced, wasPartitioned) made explicit; a recursive call of the Go code
is a call with both flags reset to true, a `continue` keeps the current
flags. -/
def pdqsortGo : Nat → List α → Nat → Nat → Nat → Bool → Bool → List α
  | 0, l, _, _, _, _, _ => l
  | fuel + 1, l, a, b, limit, wasBalanced, wasPartitioned =>
    let length := b - a
    if length ≤ 12 then insertionSortGo less l a b
    else if limit = 0 then heapSortGo less l a b
    else
      let l0 := if wasBalanced = false then breakPatternsGo l a b else l
      let limit1 := if wasBalanced = false then limit - 1 else limit
      let (pivot0, hint0) := choosePivotGo less l0 a b
      let l1 := if hint0 = SortedHint.decreasing then reverseRangeGo l0 a b else l0
      let pivot1 := if hint0 = SortedHint.decreasing then (b - 1) - (pivot0 - a) else pivot0
      let hint1 := if hint0 = SortedHint.decreasing then SortedHint.increasing else hint0
      let tryPIns := wasBalanced = true ∧ wasPartitioned = true ∧ hint1 = SortedHint.increasing
      let pinsRes := if tryPIns then pInsSortGo less l1 a b else (l1, false)
      if pinsRes.2 = true then pinsRes.1
      else
        let l2 := pinsRes.1
        if 0 < a ∧ less (lget l2 (a - 1)) (lget l2 pivot1) = false then
          let (l3, mid) := partitionEqualGo less l2 a b pivot1
          pdqsortGo fuel l3 mid b limit1 wasBalanced wasPartitioned
        else
          let (l3, mid, alreadyPartitioned) := partitionGo less l2 a b pivot1
          let leftLen := mid - a
          let rightLen := b - mid
          let wasBalanced2 := decide (min leftLen rightLen ≥ length / 8)
          if leftLen < rightLen then
            let l4 := pdqsortGo fuel l3 a mid limit1 true true
            pdqsortGo fuel l4 (mid + 1) b limit1 wasBalanced2 alreadyPartitioned
          else
            let l4 := pdqsortGo fuel l3 (mid + 1) b limit1 true true
            pdqsortGo fuel l4 a mid limit1 wasBalanced2 alreadyPartitioned

/-- sort.Slice: limit := bits.Len(uint(length)); pdqsort(0, length, limit).
The fuel length+2 strictly bounds the nesting depth of calls and continued
iterations, every one of which shrinks the range. -/
def sortSlice (l : List α) : List α :=
  pdqsortGo less (l.length + 2) l 0 l.length (bitsLen l.length) true true

end GoSort

/-
Specification predicates for the correctness proof of the sort embedding
(the proof itself is further down, with the theorems).
-/

section GoSortSpec

variable {α : Type} [Inhabited α]

/-- Sortedness of the index range [a, b) of l under less: no pair appears
in inverted order. -/
def sortedRange (less : α → α → Bool) (l : List α) (a b : Nat) : Prop :=
  ∀ i j, a ≤ i → i < j → j < b → less (lget l j) (lget l i) = false

/-- l' is a rearrangement of l inside [a, b): the length is unchanged,
positions outside [a, b) are untouched, and any property shared by all the
elements of the range still holds on the range afterwards. -/
def RangePerm (a b : Nat) (l l' : List α) : Prop :=
  l'.length = l.length ∧
  (∀ i, i < a ∨ b ≤ i → lget l' i = lget l i) ∧
  (∀ P : α → Prop, (∀ i, a ≤ i → i < b → P (lget l i)) →
    ∀ i, a ≤ i → i < b → P (lget l' i))

/-- The pdqsort loop invariant on a sub-range: when the range does not
start the slice, the element just before it is never greater than anything
inside it. -/
def PredBound (less : α → α → Bool) (l : List α) (a b : Nat) : Prop :=
  0 < a → ∀ i, a ≤ i → i < b → less (lget l i) (lget l (a - 1)) = false

/-- Adjacent non-inversion: no element of positions (a, i) is less than its
predecessor. -/
def adjSorted (less : α → α → Bool) (l : List α) (a i : Nat) : Prop :=
  ∀ k, a < k → k < i → less (lget l k) (lget l (k - 1)) = false

/-- The max-heap property of Go's heapSort on tree positions [0, hi) at
slice offset first, restricted to pairs whose parent is at least r: no such
parent is less than its child. -/
def heapAbove (less : α → α → Bool) (l : List α) (r hi first : Nat) : Prop :=
  ∀ c, c < hi → 0 < c → r ≤ (c - 1) / 2 →
    less (lget l (first + (c - 1) / 2)) (lget l (first + c)) = false

/-- q lies in the binary-tree subtree rooted at r (the descendants of r at
depth d are exactly the interval [2^d*(r+1)-1, 2^d*(r+1)+2^d-1)). -/
def isDescendant (r q : Nat) : Prop :=
  ∃ d, 2 ^ d * (r + 1) - 1 ≤ q ∧ q < 2 ^ d * (r + 1) + 2 ^ d - 1

/-- What one siftDown call guarantees: the length is kept, positions
outside the subtree of the root (within [first, first + hi)) are untouched,
any property shared by the subtree's elements is kept on the subtree, and
the heap property now extends down to the root. -/
def SiftDownConcl (less : α → α → Bool) (l l' : List α) (root hi first : Nat) : Prop :=
  l'.length = l.length ∧
  (∀ q, q < first ∨ first + hi ≤ q ∨ ¬ isDescendant root (q - first) →
    lget l' q = lget l q) ∧
  (∀ P : α → Prop, (∀ p, isDescendant root p → p < hi → P (lget l (first + p))) →
    ∀ p, isDescendant root p → p < hi → P (lget l' (first + p))) ∧
  heapAbove less l' root hi first

end GoSortSpec

/-- ProcessQuery lines 73-74: does the query request the date sort. -/
def wantsDateSort (q : String) : Bool :=
  goContains q "last" || goContains q "recent" ||
  goContains q "sort by date" || goContains q "sort by deactivation"

/-- ProcessQuery line 150: does the query request the markdown table. -/
def usesTableFormat (q : String) : Bool :=
  goContains q "table" || goContains q "markdown"

/-- ProcessQuery lines 119-142: the limit loop.  Each iteration looks at the
word at index i and its successor; the "last"/"top"/"latest" pattern is
tried first, then the "N employee(s)" pattern; a pattern only takes effect
(truncate and break) when its positive number is strictly below the current
result length, otherwise the scan carries on with the next index.
`tryLimitA` is the "last"/"top"/"latest" pattern at one index: applicable
iff the keyword is followed by a word parsing to a positive number strictly
below the current result length. -/
def tryLimitA (len : Nat) (w1 w2 : String) : Option Nat :=
  if w1 = "last" ∨ w1 = "top" ∨ w1 = "latest" then
    match goAtoi w2 with
    | some n => if 0 < n ∧ n < (len : Int) then some n.toNat else none
    | none => none
  else none

/-- The "N employee(s)" pattern at one index: applicable iff the first word
parses to a positive number strictly below the current result length and
the second word is "employee"/"employees". -/
def tryLimitB (len : Nat) (w1 w2 : String) : Option Nat :=
  if w2 = "employees" ∨ w2 = "employee" then
    match goAtoi w1 with
    | some n => if 0 < n ∧ n < (len : Int) then some n.toNat else none
    | none => none
  else none

/-- The loop body proper (see the doc comment above `tryLimitA`). -/
def limitScan (l : List EmployeeInfo) : List String → List EmployeeInfo
  | [] => l
  | [_] => l
  | w1 :: w2 :: rest =>
    match tryLimitA l.length w1 w2 with
    | some k => l.take k
    | none =>
      match tryLimitB l.length w1 w2 with
      | some k => l.take k
      | none => limitScan l (w2 :: rest)

/-- The numeric-limit stage of ProcessQuery applied to the token list. -/
def applyLimit (ws : List String) (l : List EmployeeInfo) : List EmployeeInfo :=
  limitScan l ws

/-- The limit the scan of `limitScan` ends up applying: the number of the
first pattern occurrence whose positive value is strictly below len
(a characterisation used to state the amended claim C4). -/
def firstApplicableLimit (len : Nat) : List String → Option Nat
  | [] => none
  | [_] => none
  | w1 :: w2 :: rest =>
    match tryLimitA len w1 w2 with
    | some k => some k
    | none =>
      match tryLimitB len w1 w2 with
      | some k => some k
      | none => firstApplicableLimit len (w2 :: rest)

/-- Modelled from the spec's words, for the refutation of claim C4: the
number of the first token pattern match ("last"/"top"/"latest" then a
positive integer, or a positive integer then "employee(s)"), scanning left
to right and stopping at the first successful pattern, with no length
condition on the match itself. -/
def firstPatternNum : List String → Option Int
  | [] => none
  | [_] => none
  | w1 :: w2 :: rest =>
    let tryA : Option Int :=
      if w1 = "last" ∨ w1 = "top" ∨ w1 = "latest" then
        match goAtoi w2 with
        | some n => if 0 < n then some n else none
        | none => none
      else none
    match tryA with
    | some n => some n
    | none =>
      let tryB : Option Int :=
        if w2 = "employees" ∨ w2 = "employee" then
          match goAtoi w1 with
          | some n => if 0 < n then some n else none
          | none => none
        else none
      match tryB with
      | some n => some n
      | none => firstPatternNum (w2 :: rest)

/-- Modelled from the spec's words, for the refutation of claim C4: the
limit stage as the claim describes it — the first successful pattern's
number L is the extracted limit, truncation happens only when
L < length, and L ≥ length leaves the result unchanged. -/
def claimedLimitStage (ws : List String) (l : List EmployeeInfo) : List EmployeeInfo :=
  match firstPatternNum ws with
  | some n => if n < (l.length : Int) then l.take n.toNat else l
  | none => l

/-- The fixed empty-result message of both formatters. -/
def noResultsMsg : String := "No employees found matching the criteria."

/-- One enumerated line of FormatResults (index i is 1-based). -/
def listLine (i : Nat) (e : EmployeeInfo) : String :=
  toString i ++ ". " ++ e.FirstName ++ " " ++ e.LastName ++
  (if e.Title ≠ "" then " - " ++ e.Title else "") ++
  (if e.Deactivated then
    (if e.DeactivatedDate ≠ "" then " (Deactivated on " ++ e.DeactivatedDate ++ ")"
     else " (Deactivated)")
   else "") ++ "\n"

/-- The body lines of FormatResults. -/
def listLinesAux : Nat → List EmployeeInfo → String
  | _, [] => ""
  | i, e :: rest => listLine i e ++ listLinesAux (i + 1) rest

/-- FormatResults (json_query.go lines 289-317): `none` would model a
non-nil error; every return of the Go function carries a nil error. -/
def FormatResults (employees : List EmployeeInfo) : Option String :=
  if employees.length = 0 then some noResultsMsg
  else
    some ("Found " ++ toString employees.length ++ " employees:\n\n" ++
      listLinesAux 1 employees)

/-- The table header and separator rows written by FormatAsMarkdownTable. -/
def tableHeader : String :=
  "| Name | Title | Email | Status | Deactivation Date |\n" ++
  "|------|-------|-------|--------|------------------|\n"

/-- The status column value of a table row (the `status` local of the Go
loop body). -/
def rowStatus (emp : EmployeeInfo) : String :=
  if emp.Deactivated then "Deactivated" else "Active"

/-- The date column value of a table row (the `deactivationDate` local of
the Go loop body: filled only for deactivated records). -/
def rowDate (emp : EmployeeInfo) : String :=
  if emp.Deactivated then emp.DeactivatedDate else ""

/-- One table row of FormatAsMarkdownTable. -/
def tableRow (emp : EmployeeInfo) : String :=
  "| " ++ (emp.FirstName ++ " " ++ emp.LastName) ++ " | " ++ emp.Title ++
    " | " ++ emp.Email ++ " | " ++ rowStatus emp ++ " | " ++ rowDate emp ++ " |\n"

/-- FormatAsMarkdownTable (json_query.go lines 228-256), written as the
source's builder loop; nil error throughout, as in the source. -/
def FormatAsMarkdownTable (employees : List EmployeeInfo) : Option String :=
  if employees.length = 0 then some noResultsMsg
  else some (employees.foldl (fun acc e => acc ++ tableRow e) tableHeader)

/-- The fixed lookup phrases of isSpecificEmployeeSearch. -/
def specificPatterns : List String :=
  ["when was", "when did", "what date", "who is", "information about",
   "details for", "details about", "find employee", "search for", "look for",
   "locate", "get info on"]

/-- isSpecificEmployeeSearch (json_query.go lines 259-286): any fixed phrase
wins; then "find" counts as a lookup unless it appears in one of the four
counting patterns. -/
def isSpecificEmployeeSearch (q : String) : Bool :=
  if specificPatterns.any (fun p => goContains q p) then true
  else if goContains q "find" then
    if goContains q "find last" || goContains q "find top" ||
       goContains q "find the last" || goContains q "find the top" then false
    else true
  else false

/-- gojsonq `contains`: case-insensitive substring test (the library's
`strictContains` is the case-sensitive variant). -/
def ciContains (hay needle : String) : Bool :=
  goContains (goToLower hay) (goToLower needle)

/-- The candidate set of one adjacent-word pair in findSpecificEmployee:
jq.Reset().OrWhere(first_name contains w1).OrWhere(last_name contains w2),
an OR of the two conditions over the whole collection, in order. -/
def matchedOf (coll : List RawRecord) (w1 w2 : String) : List RawRecord :=
  coll.filter (fun r => ciContains r.info.FirstName w1 || ciContains r.info.LastName w2)

/-- The narrative built from the first matching record
(json_query.go lines 198-220). -/
def narrativeOf (emp : EmployeeInfo) : String :=
  "Employee: " ++ emp.FirstName ++ " " ++ emp.LastName ++ "\n" ++
  (if emp.Title ≠ "" then "Title: " ++ emp.Title ++ "\n" else "") ++
  (if emp.Email ≠ "" then "Email: " ++ emp.Email ++ "\n" else "") ++
  (if emp.Deactivated then
    "Status: Deactivated\n" ++
    (if emp.DeactivatedDate ≠ "" then
      "Deactivation Date: " ++ emp.DeactivatedDate ++ "\n" else "")
   else "Status: Active\n")

/-- The fixed not-found message of findSpecificEmployee. -/
def notFoundMsg : String := "Employee not found in the dataset."

/-- The adjacent-pair scan of findSpecificEmployee (lines 166-221): each
iteration works on words[i], words[i+1]; short words skip the pair, a
decode failure (`decodeAll` none) or an empty candidate set skips the pair,
and the first surviving pair answers with the narrative of its first
record.  Every Go return carries a nil error, hence always `some`. -/
def pairScan (coll : List RawRecord) : List String → Option String
  | [] => some notFoundMsg
  | [_] => some notFoundMsg
  | w1 :: w2 :: rest =>
    if w1.length < 3 ∨ w2.length < 3 then pairScan coll (w2 :: rest)
    else
      match decodeAll (matchedOf coll w1 w2) with
      | none => pairScan coll (w2 :: rest)
      | some [] => pairScan coll (w2 :: rest)
      | some (emp :: _) => some (narrativeOf emp)

/-- findSpecificEmployee (json_query.go lines 161-225).  The gojsonq handle
it receives still carries the status condition of ProcessQuery, but every
pair iteration starts with jq.Reset(), which discards pending conditions
and restores the full collection — so the scan runs over `coll` itself. -/
def findSpecificEmployee (coll : List RawRecord) (q : String) : Option String :=
  pairScan coll (goFields q)

/-- The first adjacent pair the scan accepts, together with nothing else: a
characterisation used to state claim C5 (only meaningful when every record
decodes, which is the claim's hypothesis). -/
def firstHit (coll : List RawRecord) : List String → Option (String × String)
  | [] => none
  | [_] => none
  | w1 :: w2 :: rest =>
    if w1.length < 3 ∨ w2.length < 3 then firstHit coll (w2 :: rest)
    else if matchedOf coll w1 w2 = [] then firstHit coll (w2 :: rest)
    else some (w1, w2)

/-- Does every adjacent pair of the token list fail (short words, decode
failure, or no candidate), used to state claim C9. -/
def allPairsFail (coll : List RawRecord) : List String → Bool
  | [] => true
  | [_] => true
  | w1 :: w2 :: rest =>
    (if w1.length < 3 ∨ w2.length < 3 then true
     else
       match decodeAll (matchedOf coll w1 w2) with
       | none => true
       | some [] => true
       | some (_ :: _) => false) && allPairsFail coll (w2 :: rest)

/-- ProcessQuery (json_query.go lines 24-158) as a function of the raw
record collection and the query text: lower-case the query, derive the
status filter, short-circuit to the single-person lookup (which resets the
filter, see `findSpecificEmployee`), otherwise decode (`none` models the
fatal decode-error return), sort when requested, limit, and format. -/
def ProcessQuery (coll : List RawRecord) (query : String) : Option String :=
  let q := goToLower query
  if isSpecificEmployeeSearch q then findSpecificEmployee coll q
  else
    match decodeAll (filterByStatus (statusFilterOf q) coll) with
    | none => none
    | some employees =>
      let sorted :=
        if wantsDateSort q then sortSlice lessDeactivatedDate employees else employees
      let limited := applyLimit (goFields q) sorted
      if usesTableFormat q then FormatAsMarkdownTable limited
      else FormatResults limited

/-- Plain concatenation of the table rows, the shape claim C8 speaks about
(one row per record, in order). -/
def rowsCat : List EmployeeInfo → String
  | [] => ""
  | e :: rest => tableRow e ++ rowsCat rest

/-- A deactivated record with the given name and deactivation date. -/
def mkDeact (fn d : String) : EmployeeInfo :=
  ⟨fn, "X", "", "", true, d⟩

/-- The 13-record collection of the stability counterexample (claim C3):
records "Bob" and "Dan" are tied on date 2023-01-15, Bob first. -/
def c3Input : List EmployeeInfo :=
  [mkDeact "E01" "2023-01-20", mkDeact "Bob" "2023-01-15",
   mkDeact "E03" "2023-01-09", mkDeact "Dan" "2023-01-15",
   mkDeact "E05" "2023-01-03", mkDeact "E06" "2023-01-25",
   mkDeact "E07" "2023-01-10", mkDeact "E08" "2023-01-02",
   mkDeact "E09" "2023-01-28", mkDeact "E10" "2023-01-18",
   mkDeact "E11" "2023-01-05", mkDeact "E12" "2023-01-30",
   mkDeact "E13" "2023-01-01"]

/-- What sort.Slice produces on `c3Input`: correctly ordered, but with the
tied pair reversed ("Dan" now precedes "Bob"). -/
def c3Output : List EmployeeInfo :=
  [mkDeact "E12" "2023-01-30", mkDeact "E09" "2023-01-28",
   mkDeact "E06" "2023-01-25", mkDeact "E01" "2023-01-20",
   mkDeact "E10" "2023-01-18", mkDeact "Dan" "2023-01-15",
   mkDeact "Bob" "2023-01-15", mkDeact "E07" "2023-01-10",
   mkDeact "E03" "2023-01-09", mkDeact "E11" "2023-01-05",
   mkDeact "E05" "2023-01-03", mkDeact "E08" "2023-01-02",
   mkDeact "E13" "2023-01-01"]

/-- Five distinct records, used by small concrete instances. -/
def fiveRecords : List EmployeeInfo :=
  [mkDeact "P1" "2023-01-05", mkDeact "P2" "2023-01-04",
   mkDeact "P3" "2023-01-03", mkDeact "P4" "2023-01-02",
   mkDeact "P5" "2023-01-01"]

/-- A one-record collection holding an active John Doe that decodes fine
(claim C10). -/
def johnDoeActive : List RawRecord :=
  [⟨⟨"John", "Doe", "john@x.example", "Engineer", false, ""⟩, true⟩]

/-- A one-record collection whose John Doe record fails to decode
(claim C9's witness). -/
def johnDoeBad : List RawRecord :=
  [⟨⟨"John", "Doe", "", "", false, ""⟩, false⟩]

/-- Four records covering all date classes, in scrambled order (claim C2's
witness sorts them). -/
def c2Scrambled : List EmployeeInfo :=
  [⟨"a", "", "", "", true, ""⟩, ⟨"b", "", "", "", true, "bogus"⟩,
   ⟨"c", "", "", "", true, "2023-12-31"⟩, ⟨"d", "", "", "", true, "2024-01-02"⟩]

/-
Helper lemmas (shared freely between claims).
-/

/-- The comparator of the date sort is exactly the strict order of the date
keys: descending parseable dates first, then unparseable dates, then empty
dates. -/
theorem lessDeactivatedDate_eq_key (a b : EmployeeInfo) :
    lessDeactivatedDate a b = decide (dateKey a < dateKey b) := by
  simp only [lessDeactivatedDate, dateKey]
  by_cases ha : a.DeactivatedDate = "" <;> by_cases hb : b.DeactivatedDate = "" <;>
    simp only [ha, hb, if_true, if_false, true_and, and_true, false_and, and_false,
      ite_true, ite_false, if_pos, not_true, not_false_iff]
  · simp
  · rcases hpb : goParseDate b.DeactivatedDate with _ | m <;> simp <;> omega
  · rcases hpa : goParseDate a.DeactivatedDate with _ | n <;> simp <;> omega
  · rcases hpa : goParseDate a.DeactivatedDate with _ | n <;>
      rcases hpb : goParseDate b.DeactivatedDate with _ | m <;> simp <;> omega

/-- goContains is monotone under taking substrings of the needle. -/
theorem goContains_of_isInfix {q s t : String} (h : List.IsInfix s.data t.data)
    (hq : goContains q t = true) : goContains q s = true := by
  simp only [goContains, decide_eq_true_eq] at hq ⊢
  exact h.trans hq


/-
Correctness of the sort.Slice embedding: for a comparator induced by an
integer key (which `lessDeactivatedDate` is, by `lessDeactivatedDate_eq_key`),
`sortSlice` always returns a list sorted for that comparator.  The proof
follows the operational embedding function by function.
-/

section GoSortProof

variable {α : Type} [Inhabited α]

/-- Reading a set position. -/
theorem lget_set_eq (l : List α) (i : Nat) (a : α) (h : i < l.length) :
    lget (l.set i a) i = a := by
  induction l generalizing i with
  | nil => exact absurd h (by simp)
  | cons x xs ih =>
    cases i with
    | zero => rfl
    | succ k => exact ih k (by simpa using h)

/-- Reading an unset position. -/
theorem lget_set_ne (l : List α) (i j : Nat) (a : α) (h : i ≠ j) :
    lget (l.set i a) j = lget l j := by
  induction l generalizing i j with
  | nil => rfl
  | cons x xs ih =>
    cases i with
    | zero =>
      cases j with
      | zero => exact absurd rfl h
      | succ k => rfl
    | succ k =>
      cases j with
      | zero => rfl
      | succ m => exact ih k m (fun he => h (by rw [he]))

/-- Swapping preserves the length. -/
theorem length_lswap (l : List α) (i j : Nat) :
    (lswap l i j).length = l.length := by
  simp [lswap]

/-- Reading the first swapped position. -/
theorem lget_lswap_fst (l : List α) {i j : Nat} (hi : i < l.length)
    (hj : j < l.length) : lget (lswap l i j) i = lget l j := by
  by_cases hij : i = j
  · subst hij
    rw [lswap]
    exact lget_set_eq _ i _ (by simpa using hi)
  · rw [lswap, lget_set_ne _ j i _ (fun he => hij he.symm)]
    exact lget_set_eq _ i _ hi

/-- Reading the second swapped position. -/
theorem lget_lswap_snd (l : List α) {i j : Nat} (hj : j < l.length) :
    lget (lswap l i j) j = lget l i := by
  rw [lswap]
  exact lget_set_eq _ j _ (by simpa using hj)

/-- Reading any other position. -/
theorem lget_lswap_other (l : List α) {i j k : Nat} (h1 : k ≠ i) (h2 : k ≠ j) :
    lget (lswap l i j) k = lget l k := by
  rw [lswap, lget_set_ne _ j k _ (fun he => h2 he.symm),
    lget_set_ne _ i k _ (fun he => h1 he.symm)]

/-- RangePerm is reflexive. -/
theorem RangePerm.refl (a b : Nat) (l : List α) : RangePerm a b l l :=
  ⟨rfl, fun _ _ => rfl, fun _ hP => hP⟩

/-- RangePerm composes. -/
theorem RangePerm.trans {a b : Nat} {l1 l2 l3 : List α}
    (h1 : RangePerm a b l1 l2) (h2 : RangePerm a b l2 l3) :
    RangePerm a b l1 l3 :=
  ⟨h2.1.trans h1.1, fun i hi => (h2.2.1 i hi).trans (h1.2.1 i hi),
   fun P hP => h2.2.2 P (h1.2.2 P hP)⟩

/-- A RangePerm of a sub-range is a RangePerm of the range. -/
theorem RangePerm.mono {a b a' b' : Nat} {l l' : List α}
    (h : RangePerm a' b' l l') (ha : a ≤ a') (hb : b' ≤ b) :
    RangePerm a b l l' := by
  refine ⟨h.1, fun i hi => h.2.1 i (by omega), fun P hP i h1 h2 => ?_⟩
  by_cases hin : a' ≤ i ∧ i < b'
  · exact h.2.2 P (fun k hk1 hk2 => hP k (by omega) (by omega)) i hin.1 hin.2
  · rw [h.2.1 i (by omega)]
    exact hP i h1 h2

/-- A swap inside the range is a RangePerm. -/
theorem rangePerm_lswap {a b i j : Nat} (l : List α) (hai : a ≤ i) (hib : i < b)
    (haj : a ≤ j) (hjb : j < b) (hb : b ≤ l.length) :
    RangePerm a b l (lswap l i j) := by
  have hi : i < l.length := by omega
  have hj : j < l.length := by omega
  refine ⟨length_lswap l i j, fun k hk => ?_, fun P hP k h1 h2 => ?_⟩
  · exact lget_lswap_other l (by omega) (by omega)
  · by_cases hki : k = i
    · subst hki
      rw [lget_lswap_fst l hi hj]
      exact hP j haj hjb
    · by_cases hkj : k = j
      · subst hkj
        rw [lget_lswap_snd l hj]
        exact hP i hai hib
      · rw [lget_lswap_other l hki hkj]
        exact hP k h1 h2

/-- PredBound survives any rearrangement of the range. -/
theorem PredBound.perm {less : α → α → Bool} {a b : Nat} {l l' : List α}
    (hp : PredBound less l a b) (hr : RangePerm a b l l') :
    PredBound less l' a b := by
  intro ha i h1 h2
  have hpred : lget l' (a - 1) = lget l (a - 1) := hr.2.1 _ (by omega)
  rw [hpred]
  exact hr.2.2 (fun x => less x (lget l (a - 1)) = false) (hp ha) i h1 h2

/-- Sortedness of a region untouched by a RangePerm is preserved. -/
theorem sortedRange_of_disjoint {less : α → α → Bool} {a b c d : Nat}
    {l l' : List α} (hs : sortedRange less l a b) (hr : RangePerm c d l l')
    (hdisj : b ≤ c ∨ d ≤ a) : sortedRange less l' a b := by
  intro i j h1 h2 h3
  rw [hr.2.1 i (by omega), hr.2.1 j (by omega)]
  exact hs i j h1 h2 h3

section KeyFacts

variable {α : Type} [Inhabited α] {less : α → α → Bool} {key : α → Int}

/-- For a key-induced comparator, a false comparison is a key bound. -/
theorem less_false_iff (hless : ∀ x y, less x y = decide (key x < key y)) (x y : α) : less x y = false ↔ key y ≤ key x := by
  rw [hless]
  simp only [decide_eq_false_iff_not]
  omega

/-- For a key-induced comparator, a true comparison is a strict key bound. -/
theorem less_true_iff (hless : ∀ x y, less x y = decide (key x < key y)) (x y : α) : less x y = true ↔ key x < key y := by
  rw [hless]
  simp only [decide_eq_true_eq]

/-- Adjacent non-inversion on a whole range gives sortedness, by chaining
the keys. -/
theorem sortedRange_of_adjSorted (hless : ∀ x y, less x y = decide (key x < key y)) {l : List α} {a b : Nat}
    (h : adjSorted less l a b) : sortedRange less l a b := by
  intro i j h1 h2 h3
  rw [less_false_iff hless]
  have chain : ∀ d, i + d < b → key (lget l i) ≤ key (lget l (i + d)) := by
    intro d
    induction d with
    | zero => intro _; exact le_refl _
    | succ e ih =>
      intro hd
      have h1' : key (lget l i) ≤ key (lget l (i + e)) := ih (by omega)
      have h2' := h (i + e + 1) (by omega) (by omega)
      rw [less_false_iff hless, show i + e + 1 - 1 = i + e from rfl] at h2'
      calc key (lget l i) ≤ key (lget l (i + e)) := h1'
        _ ≤ key (lget l (i + e + 1)) := h2'
  have hc := chain (j - i) (by omega)
  rw [show i + (j - i) = j by omega] at hc
  exact hc

/-- The inner insertion loop: bubbling the element at p down into the
sorted prefix yields adjacent-sortedness up to i+1. -/
theorem insInner_spec (hless : ∀ x y, less x y = decide (key x < key y)) {a b i : Nat} :
    ∀ (p : Nat) (l : List α), a ≤ p → p ≤ i → i < b → b ≤ l.length →
    adjSorted less l a p →
    (∀ k, p < k → k ≤ i → less (lget l k) (lget l (k - 1)) = false) →
    (p < i → a < p → less (lget l (p + 1)) (lget l (p - 1)) = false) →
    adjSorted less (insInner less l a p) a (i + 1) ∧
      RangePerm a (i + 1) l (insInner less l a p) := by
  intro p
  induction p with
  | zero =>
    intro l hap hpi hib hbl hA hB hC
    rw [insInner]
    constructor
    · intro k hk1 hk2
      exact hB k (by omega) (by omega)
    · exact RangePerm.refl a (i + 1) l
  | succ k ih =>
    intro l hap hpi hib hbl hA hB hC
    rw [insInner]
    by_cases ha : a < k + 1
    · rw [if_pos ha]
      by_cases hl : less (lget l (k + 1)) (lget l k) = true
      · rw [if_pos hl]
        set m := lswap l (k + 1) k with hm
        have hk1len : k + 1 < l.length := by omega
        have hklen : k < l.length := by omega
        have hmf : lget m (k + 1) = lget l k := lget_lswap_fst l hk1len hklen
        have hms : lget m k = lget l (k + 1) := lget_lswap_snd l hklen
        have hrm : RangePerm a (i + 1) l m :=
          rangePerm_lswap l (by omega) (by omega) (by omega) (by omega) (by omega)
        have hmlen : b ≤ m.length := by
          rw [hrm.1.symm] at hbl
          exact hbl
        have hA' : adjSorted less m a k := by
          intro k' h1 h2
          rw [lget_lswap_other l (by omega) (by omega),
            lget_lswap_other l (by omega) (by omega)]
          exact hA k' h1 (by omega)
        have hB' : ∀ k', k < k' → k' ≤ i → less (lget m k') (lget m (k' - 1)) = false := by
          intro k' h1 h2
          by_cases he1 : k' = k + 1
          · subst he1
            simp only [show k + 1 - 1 = k by omega, hmf, hms]
            rw [less_false_iff hless]
            have := (less_true_iff hless _ _).mp hl
            omega
          · by_cases he2 : k' = k + 2
            · subst he2
              rw [lget_lswap_other l (by omega) (by omega),
                show k + 2 - 1 = k + 1 by omega, hmf]
              have := hC (by omega) (by omega)
              simpa using this
            · rw [lget_lswap_other l (by omega) (by omega),
                lget_lswap_other l (by omega) (by omega)]
              exact hB k' (by omega) h2
        have hC' : k < i → a < k → less (lget m (k + 1)) (lget m (k - 1)) = false := by
          intro h1 h2
          rw [hmf, lget_lswap_other l (by omega) (by omega)]
          exact hA k h2 (by omega)
        have := ih m (by omega) (by omega) hib hmlen hA' hB' hC'
        exact ⟨this.1, hrm.trans this.2⟩
      · rw [if_neg hl]
        refine ⟨?_, RangePerm.refl a (i + 1) l⟩
        intro k' h1 h2
        by_cases he : k' = k + 1
        · subst he
          simpa using (Bool.eq_false_iff.mpr hl)
        · by_cases hlt : k' < k + 1
          · exact hA k' h1 hlt
          · exact hB k' (by omega) (by omega)
    · rw [if_neg ha]
      refine ⟨?_, RangePerm.refl a (i + 1) l⟩
      intro k' h1 h2
      exact hB k' (by omega) (by omega)

/-- The outer insertion loop extends adjacent-sortedness to the whole
range. -/
theorem insOuter_spec (hless : ∀ x y, less x y = decide (key x < key y)) {a b : Nat} :
    ∀ (fuel : Nat) (l : List α) (i : Nat), a + 1 ≤ i → b ≤ l.length →
    b - i ≤ fuel → adjSorted less l a i →
    adjSorted less (insOuter less fuel l a i b) a b ∧
      RangePerm a b l (insOuter less fuel l a i b) := by
  intro fuel
  induction fuel with
  | zero =>
    intro l i h1 h2 h3 h4
    rw [insOuter]
    refine ⟨fun k hk1 hk2 => h4 k hk1 (by omega), RangePerm.refl a b l⟩
  | succ f ih =>
    intro l i h1 h2 h3 h4
    rw [insOuter]
    by_cases hib : i < b
    · rw [if_pos hib]
      have hins := insInner_spec hless i l (by omega) (le_refl i) hib h2 h4
        (fun k hk1 hk2 => absurd hk1 (by omega)) (fun h _ => absurd h (by omega))
      have hrm : RangePerm a b l (insInner less l a i) :=
        hins.2.mono (le_refl a) (by omega)
      have hlen : b ≤ (insInner less l a i).length := by
        rw [hrm.1]
        exact h2
      have := ih (insInner less l a i) (i + 1) (by omega) hlen (by omega) hins.1
      exact ⟨this.1, hrm.trans this.2⟩
    · rw [if_neg hib]
      refine ⟨fun k hk1 hk2 => h4 k hk1 (by omega), RangePerm.refl a b l⟩

/-- insertionSort_func sorts its range and only rearranges it. -/
theorem insertionSortGo_spec (hless : ∀ x y, less x y = decide (key x < key y)) {a b : Nat} (l : List α)
    (hb : b ≤ l.length) :
    sortedRange less (insertionSortGo less l a b) a b ∧
      RangePerm a b l (insertionSortGo less l a b) := by
  have := insOuter_spec hless b l (a + 1) (le_refl (a + 1)) hb (by omega)
    (fun k h1 h2 => absurd h1 (by omega))
  exact ⟨sortedRange_of_adjSorted hless this.1, this.2⟩

/-- The partialInsertionSort scan: it moves forward over non-inverted
adjacent pairs and stops at the end or at an inversion. -/
theorem advanceI_spec (less : α → α → Bool) :
    ∀ (fuel : Nat) (l : List α) (i b : Nat), i ≤ b → b - i ≤ fuel →
    i ≤ advanceI less fuel l i b ∧ advanceI less fuel l i b ≤ b ∧
    (∀ k, i ≤ k → k < advanceI less fuel l i b →
      less (lget l k) (lget l (k - 1)) = false) ∧
    (advanceI less fuel l i b < b →
      less (lget l (advanceI less fuel l i b))
        (lget l (advanceI less fuel l i b - 1)) = true) := by
  intro fuel
  induction fuel with
  | zero =>
    intro l i b h1 h2
    rw [advanceI]
    exact ⟨le_refl i, h1, fun k hk1 hk2 => by omega, fun h => by omega⟩
  | succ f ih =>
    intro l i b h1 h2
    rw [advanceI]
    by_cases hc : i < b ∧ less (lget l i) (lget l (i - 1)) = false
    · rw [if_pos hc]
      have := ih l (i + 1) b (by omega) (by omega)
      refine ⟨by omega, this.2.1, fun k hk1 hk2 => ?_, this.2.2.2⟩
      by_cases hk : k = i
      · subst hk
        exact hc.2
      · exact this.2.2.1 k (by omega) hk2
    · rw [if_neg hc]
      refine ⟨le_refl i, h1, fun k hk1 hk2 => by omega, fun h => ?_⟩
      cases hx : less (lget l i) (lget l (i - 1)) with
      | false => exact absurd ⟨h, hx⟩ hc
      | true => rfl

/-- The left shift of partialInsertionSort: inserting the element at p into
the adjacent-sorted prefix (the predecessor bound keeps the shift from
leaving the range on the left). -/
theorem shiftLeftGo_spec (hless : ∀ x y, less x y = decide (key x < key y)) {a b t : Nat} :
    ∀ (p : Nat) (l : List α), a ≤ p → p ≤ t → t < b → b ≤ l.length →
    PredBound less l a b →
    adjSorted less l a p →
    (∀ k, p < k → k ≤ t → less (lget l k) (lget l (k - 1)) = false) →
    (p < t → a < p → less (lget l (p + 1)) (lget l (p - 1)) = false) →
    adjSorted less (shiftLeftGo less l p) a (t + 1) ∧
      RangePerm a (t + 1) l (shiftLeftGo less l p) := by
  intro p
  induction p with
  | zero =>
    intro l hap hpt htb hbl hPred hA hB hC
    rw [shiftLeftGo]
    exact ⟨fun k h1 h2 => hB k (by omega) (by omega), RangePerm.refl _ _ _⟩
  | succ k ih =>
    intro l hap hpt htb hbl hPred hA hB hC
    rw [shiftLeftGo]
    by_cases hl : less (lget l (k + 1)) (lget l k) = true
    · rw [if_pos hl]
      have hak : a ≤ k := by
        by_contra hcon
        have ha : a = k + 1 := by omega
        have hpb := hPred (by omega) a (le_refl a) (by omega)
        rw [ha, show k + 1 - 1 = k from rfl] at hpb
        rw [hpb] at hl
        exact Bool.noConfusion hl
      set m := lswap l (k + 1) k with hm
      have hk1len : k + 1 < l.length := by omega
      have hklen : k < l.length := by omega
      have hmf : lget m (k + 1) = lget l k := lget_lswap_fst l hk1len hklen
      have hms : lget m k = lget l (k + 1) := lget_lswap_snd l hklen
      have hrm : RangePerm a (t + 1) l m :=
        rangePerm_lswap l (by omega) (by omega) hak (by omega) (by omega)
      have hrb : RangePerm a b l m :=
        rangePerm_lswap l (by omega) (by omega) hak (by omega) hbl
      have hmlen : b ≤ m.length := by
        rw [hrb.1]
        exact hbl
      have hPred' : PredBound less m a b := hPred.perm hrb
      have hA' : adjSorted less m a k := by
        intro k' h1 h2
        rw [lget_lswap_other l (by omega) (by omega),
          lget_lswap_other l (by omega) (by omega)]
        exact hA k' h1 (by omega)
      have hB' : ∀ k', k < k' → k' ≤ t → less (lget m k') (lget m (k' - 1)) = false := by
        intro k' h1 h2
        by_cases he1 : k' = k + 1
        · subst he1
          simp only [show k + 1 - 1 = k by omega, hmf, hms]
          rw [less_false_iff hless]
          have := (less_true_iff hless _ _).mp hl
          omega
        · by_cases he2 : k' = k + 2
          · subst he2
            rw [lget_lswap_other l (by omega) (by omega),
              show k + 2 - 1 = k + 1 by omega, hmf]
            have := hC (by omega) (by omega)
            simpa using this
          · rw [lget_lswap_other l (by omega) (by omega),
              lget_lswap_other l (by omega) (by omega)]
            exact hB k' (by omega) h2
      have hC' : k < t → a < k → less (lget m (k + 1)) (lget m (k - 1)) = false := by
        intro h1 h2
        rw [hmf, lget_lswap_other l (by omega) (by omega)]
        exact hA k h2 (by omega)
      have := ih m hak (by omega) htb hmlen hPred' hA' hB' hC'
      exact ⟨this.1, hrm.trans this.2⟩
    · rw [if_neg (by simpa using hl)]
      refine ⟨?_, RangePerm.refl _ _ _⟩
      intro k' h1 h2
      by_cases he : k' = k + 1
      · subst he
        simpa using (Bool.eq_false_iff.mpr hl)
      · by_cases hlt : k' < k + 1
        · exact hA k' h1 hlt

        · exact hB k' (by omega) (by omega)

/-- The right shift of partialInsertionSort only rearranges positions from
j-1 on. -/
theorem shiftRightGo_spec (less : α → α → Bool) {b : Nat} :
    ∀ (fuel : Nat) (l : List α) (j : Nat), 1 ≤ j → j + fuel ≤ b → b ≤ l.length →
    RangePerm (j - 1) b l (shiftRightGo less fuel l j) := by
  intro fuel
  induction fuel with
  | zero =>
    intro l j h1 h2 h3
    rw [shiftRightGo]
    exact RangePerm.refl _ _ _
  | succ f ih =>
    intro l j h1 h2 h3
    rw [shiftRightGo]
    by_cases hc : less (lget l j) (lget l (j - 1)) = true
    · rw [if_pos hc]
      have hrm : RangePerm (j - 1) b l (lswap l j (j - 1)) :=
        rangePerm_lswap l (by omega) (by omega) (le_refl _) (by omega) h3
      have hlen : b ≤ (lswap l j (j - 1)).length := by
        rw [hrm.1]
        exact h3
      have := ih (lswap l j (j - 1)) (j + 1) (by omega) (by omega) hlen
      exact hrm.trans (this.mono (by omega) (le_refl b))
    · rw [if_neg (by simpa using hc)]
      exact RangePerm.refl _ _ _

/-- The partialInsertionSort loop: it only rearranges the range, and when
it reports true the range is sorted. -/
theorem pInsLoop_spec (hless : ∀ x y, less x y = decide (key x < key y)) {a b : Nat} :
    ∀ (step : Nat) (l : List α) (i : Nat), a + 1 ≤ i → i ≤ b → b ≤ l.length →
    PredBound less l a b → adjSorted less l a i →
    RangePerm a b l (pInsLoop less step l i a b).1 ∧
    ((pInsLoop less step l i a b).2 = true →
      sortedRange less (pInsLoop less step l i a b).1 a b) := by
  intro step
  induction step with
  | zero =>
    intro l i h1 h2 h3 hPred hA
    simp only [pInsLoop]
    exact ⟨RangePerm.refl _ _ _, fun h => Bool.noConfusion h⟩
  | succ s ih =>
    intro l i h1 h2 h3 hPred hA
    simp only [pInsLoop]
    have hadv := advanceI_spec less b l i b h2 (by omega)
    set i' := advanceI less b l i b with hi'
    have hadj' : adjSorted less l a i' := by
      intro k hk1 hk2
      by_cases hk : k < i
      · exact hA k hk1 hk
      · exact hadv.2.2.1 k (by omega) hk2
    by_cases hend : i' = b
    · rw [if_pos hend]
      refine ⟨RangePerm.refl _ _ _, fun _ => ?_⟩
      apply sortedRange_of_adjSorted hless
      intro k hk1 hk2
      exact hadj' k hk1 (by omega)
    · rw [if_neg hend]
      by_cases hshort : b - a < 50
      · rw [if_pos hshort]
        exact ⟨RangePerm.refl _ _ _, fun h => Bool.noConfusion h⟩
      · rw [if_neg hshort]
        have hi'b : i' < b := by omega
        have hr1 : RangePerm a b l (lswap l i' (i' - 1)) :=
          rangePerm_lswap l (by omega) hi'b (by omega) (by omega) h3
        set l1 := lswap l i' (i' - 1) with hl1
        have hlen1 : b ≤ l1.length := by
          rw [hr1.1]
          exact h3
        have hadj1 : adjSorted less l1 a (i' - 1) := by
          intro k hk1 hk2
          rw [lget_lswap_other l (by omega) (by omega),
            lget_lswap_other l (by omega) (by omega)]
          exact hadj' k hk1 (by omega)
        have hstep2 :
            adjSorted less (if 2 ≤ i' - a then shiftLeftGo less l1 (i' - 1) else l1) a i' ∧
            RangePerm a b l1 (if 2 ≤ i' - a then shiftLeftGo less l1 (i' - 1) else l1) := by
          by_cases h2a : 2 ≤ i' - a
          · rw [if_pos h2a]
            have hsl := shiftLeftGo_spec hless (a := a) (b := b) (t := i' - 1)
              (i' - 1) l1 (by omega) (le_refl _) (by omega) hlen1
              (hPred.perm hr1) hadj1
              (fun k hk1 hk2 => by omega) (fun hh _ => by omega)
            rw [show i' - 1 + 1 = i' by omega] at hsl
            exact ⟨hsl.1, hsl.2.mono (le_refl a) (by omega)⟩
          · rw [if_neg h2a]
            refine ⟨fun k hk1 hk2 => ?_, RangePerm.refl _ _ _⟩
            exact absurd hk2 (by omega)
        set l2 := (if 2 ≤ i' - a then shiftLeftGo less l1 (i' - 1) else l1) with hl2
        have hlen2 : b ≤ l2.length := by
          rw [hstep2.2.1]
          exact hlen1
        have hstep3 :
            adjSorted less (if 2 ≤ b - i' then shiftRightGo less (b - (i' + 1)) l2 (i' + 1) else l2) a i' ∧
            RangePerm a b l2 (if 2 ≤ b - i' then shiftRightGo less (b - (i' + 1)) l2 (i' + 1) else l2) := by
          by_cases h2b : 2 ≤ b - i'
          · rw [if_pos h2b]
            have hsr := shiftRightGo_spec less (b := b) (b - (i' + 1)) l2
              (i' + 1) (by omega) (by omega) hlen2
            rw [show i' + 1 - 1 = i' by omega] at hsr
            refine ⟨fun k hk1 hk2 => ?_, hsr.mono (by omega) (le_refl b)⟩
            rw [hsr.2.1 k (by omega), hsr.2.1 (k - 1) (by omega)]
            exact hstep2.1 k hk1 hk2
          · rw [if_neg h2b]
            exact ⟨hstep2.1, RangePerm.refl _ _ _⟩
        set l3 := (if 2 ≤ b - i' then shiftRightGo less (b - (i' + 1)) l2 (i' + 1) else l2) with hl3
        have hlen3 : b ≤ l3.length := by
          rw [hstep3.2.1]
          exact hlen2
        have hrall : RangePerm a b l l3 :=
          (hr1.trans hstep2.2).trans hstep3.2
        have := ih l3 i' (by omega) (by omega) hlen3 (hPred.perm hrall) hstep3.1
        exact ⟨hrall.trans this.1, this.2⟩

/-- partialInsertionSort_func: a range rearrangement that reports true only
when the range ends up sorted. -/
theorem pInsSortGo_spec (hless : ∀ x y, less x y = decide (key x < key y)) {a b : Nat}
    (l : List α) (hab : a < b) (hbl : b ≤ l.length) (hPred : PredBound less l a b) :
    RangePerm a b l (pInsSortGo less l a b).1 ∧
    ((pInsSortGo less l a b).2 = true → sortedRange less (pInsSortGo less l a b).1 a b) := by
  have := pInsLoop_spec hless 5 l (a + 1) (le_refl _) (by omega) hbl hPred
    (fun k h1 h2 => by omega)
  exact this

/-- The partition i-scan: it walks right over elements less than the
pivot slot a and stops at the bound or at a non-less element. -/
theorem partScanI_spec (less : α → α → Bool) :
    ∀ (fuel : Nat) (l : List α) (i j a : Nat), i ≤ j + 1 → j + 2 ≤ fuel + i →
    i ≤ partScanI less fuel l i j a ∧ partScanI less fuel l i j a ≤ j + 1 ∧
    (∀ k, i ≤ k → k < partScanI less fuel l i j a →
      less (lget l k) (lget l a) = true) ∧
    (partScanI less fuel l i j a ≤ j →
      less (lget l (partScanI less fuel l i j a)) (lget l a) = false) := by
  intro fuel
  induction fuel with
  | zero =>
    intro l i j a h1 h2
    exact ((by omega : False)).elim
  | succ f ih =>
    intro l i j a h1 h2
    rw [partScanI]
    by_cases hc : i ≤ j ∧ less (lget l i) (lget l a) = true
    · rw [if_pos hc]
      have := ih l (i + 1) j a (by omega) (by omega)
      refine ⟨by omega, this.2.1, fun k hk1 hk2 => ?_, this.2.2.2⟩
      by_cases hk : k = i
      · subst hk
        exact hc.2
      · exact this.2.2.1 k (by omega) hk2
    · rw [if_neg hc]
      refine ⟨le_refl i, h1, fun k hk1 hk2 => by omega, fun h => ?_⟩
      cases hx : less (lget l i) (lget l a) with
      | false => rfl
      | true => exact absurd ⟨h, hx⟩ hc

/-- The partition j-scan: it walks left over elements not less than the
pivot slot a and stops at the crossing point or at a less element. -/
theorem partScanJ_spec (less : α → α → Bool) :
    ∀ (fuel : Nat) (l : List α) (i j a : Nat), 1 ≤ i → i ≤ j + 1 → j + 2 ≤ fuel + i →
    partScanJ less fuel l i j a ≤ j ∧ i ≤ partScanJ less fuel l i j a + 1 ∧
    (∀ k, partScanJ less fuel l i j a < k → k ≤ j →
      less (lget l k) (lget l a) = false) ∧
    (i ≤ partScanJ less fuel l i j a →
      less (lget l (partScanJ less fuel l i j a)) (lget l a) = true) := by
  intro fuel
  induction fuel with
  | zero =>
    intro l i j a h0 h1 h2
    exact ((by omega : False)).elim
  | succ f ih =>
    intro l i j a h0 h1 h2
    rw [partScanJ]
    by_cases hc : i ≤ j ∧ less (lget l j) (lget l a) = false
    · rw [if_pos hc]
      have := ih l i (j - 1) a h0 (by omega) (by omega)
      refine ⟨by omega, by omega, fun k hk1 hk2 => ?_, this.2.2.2⟩
      by_cases hk : k = j
      · subst hk
        exact hc.2
      · exact this.2.2.1 k hk1 (by omega)
    · rw [if_neg hc]
      refine ⟨le_refl j, h1, fun k hk1 hk2 => by omega, fun h => ?_⟩
      cases hx : less (lget l j) (lget l a) with
      | false => exact absurd ⟨h, hx⟩ hc
      | true => rfl

/-- The partition swap loop: it splits [a, b) around the value at slot a
(less-than on the left of the returned index, not-less on the right, the
value itself at the index). -/
theorem partLoop_spec (less : α → α → Bool) {a b n : Nat} (hn : b + 1 ≤ n) :
    ∀ (fuel : Nat) (l : List α) (i j : Nat),
    a + 1 ≤ i → i ≤ j + 1 → j < b → b ≤ l.length → j + 2 ≤ fuel + i →
    (∀ k, a + 1 ≤ k → k < i → less (lget l k) (lget l a) = true) →
    (∀ k, j < k → k < b → less (lget l k) (lget l a) = false) →
    RangePerm a b l (partLoop less fuel n l i j a).1 ∧
    a ≤ (partLoop less fuel n l i j a).2.1 ∧ (partLoop less fuel n l i j a).2.1 < b ∧
    lget (partLoop less fuel n l i j a).1 (partLoop less fuel n l i j a).2.1 = lget l a ∧
    (∀ k, a ≤ k → k < (partLoop less fuel n l i j a).2.1 →
      less (lget (partLoop less fuel n l i j a).1 k) (lget l a) = true) ∧
    (∀ k, (partLoop less fuel n l i j a).2.1 < k → k < b →
      less (lget (partLoop less fuel n l i j a).1 k) (lget l a) = false) := by
  intro fuel
  induction fuel with
  | zero =>
    intro l i j hi hij hjb hbl hfuel hR1 hR2
    exact ((by omega : False)).elim
  | succ f ih =>
    intro l i j hi hij hjb hbl hfuel hR1 hR2
    obtain ⟨hsi1, hsi2, hsiR, hsiS⟩ :=
      partScanI_spec less n l i j a hij (by omega)
    obtain ⟨hsj1, hsj2, hsjR, hsjS⟩ :=
      partScanJ_spec less n l (partScanI less n l i j a) j a
        (by omega) hsi2 (by omega)
    have heq : partLoop less (f + 1) n l i j a =
        (let i' := partScanI less n l i j a
         let j' := partScanJ less n l i' j a
         if j' < i' then (lswap l j' a, j', false)
         else partLoop less f n (lswap l i' j') (i' + 1) (j' - 1) a) := rfl
    rw [heq]
    dsimp only
    set i' := partScanI less n l i j a with hidef
    set j' := partScanJ less n l i' j a with hjdef
    by_cases hcross : j' < i'
    · rw [if_pos hcross]
      dsimp only
      have hj'a : a ≤ j' := by omega
      have hj'b : j' < b := by omega
      have hperm : RangePerm a b l (lswap l j' a) :=
        rangePerm_lswap l hj'a hj'b (le_refl a) (by omega) hbl
      have hj'len : j' < l.length := by omega
      have halen : a < l.length := by omega
      refine ⟨hperm, hj'a, hj'b, ?_, ?_, ?_⟩
      · exact lget_lswap_fst l hj'len halen
      · intro k hk1 hk2
        by_cases hka : k = a
        · subst hka
          rw [lget_lswap_snd l halen]
          by_cases hji : j' < i
          · exact hR1 j' (by omega) hji
          · exact hsiR j' (by omega) (by omega)
        · rw [lget_lswap_other l (show k ≠ j' by omega) hka]
          by_cases hki : k < i
          · exact hR1 k (by omega) hki
          · exact hsiR k (by omega) (by omega)
      · intro k hk1 hk2
        rw [lget_lswap_other l (by omega) (by omega)]
        by_cases hkj : k ≤ j
        · exact hsjR k hk1 hkj
        · exact hR2 k (by omega) hk2
    · rw [if_neg hcross]
      have hlt : i' < j' := by
        rcases Nat.lt_or_ge i' j' with h | h
        · exact h
        · have he : i' = j' := by omega
          have h1 := hsiS (by omega)
          have h2 := hsjS (by omega)
          rw [he] at h1
          rw [h1] at h2
          exact Bool.noConfusion h2
      have hi'len : i' < l.length := by omega
      have hj'len : j' < l.length := by omega
      set m := lswap l i' j' with hm
      have hperm : RangePerm a b l m :=
        rangePerm_lswap l (by omega) (by omega) (by omega) (by omega) hbl
      have hma : lget m a = lget l a :=
        lget_lswap_other l (by omega) (by omega)
      have hmlen : b ≤ m.length := by
        rw [hperm.1]
        exact hbl
      have hR1' : ∀ k, a + 1 ≤ k → k < i' + 1 → less (lget m k) (lget m a) = true := by
        intro k hk1 hk2
        rw [hma]
        by_cases hki : k = i'
        · subst hki
          rw [lget_lswap_fst l hi'len hj'len]
          exact hsjS (by omega)
        · rw [lget_lswap_other l hki (by omega)]
          by_cases hkl : k < i
          · exact hR1 k hk1 hkl
          · exact hsiR k (by omega) (by omega)
      have hR2' : ∀ k, j' - 1 < k → k < b → less (lget m k) (lget m a) = false := by
        intro k hk1 hk2
        rw [hma]
        by_cases hkj : k = j'
        · subst hkj
          rw [lget_lswap_snd l hj'len]
          exact hsiS (by omega)
        · rw [lget_lswap_other l (by omega) hkj]
          by_cases hkup : k ≤ j
          · exact hsjR k (by omega) hkup
          · exact hR2 k (by omega) hk2
      have := ih m (i' + 1) (j' - 1) (by omega) (by omega) (by omega) hmlen
        (by omega) hR1' hR2'
      rw [hma] at this
      exact ⟨hperm.trans this.1, this.2.1, this.2.2.1, this.2.2.2.1,
        this.2.2.2.2.1, this.2.2.2.2.2⟩

/-- partition_func: Hoare partition around the element at index pivot. -/
theorem partitionGo_spec (less : α → α → Bool) {a b pivot : Nat} (l : List α) (hab : a < b)
    (hbl : b ≤ l.length) (hpa : a ≤ pivot) (hpb : pivot < b) :
    RangePerm a b l (partitionGo less l a b pivot).1 ∧
    a ≤ (partitionGo less l a b pivot).2.1 ∧ (partitionGo less l a b pivot).2.1 < b ∧
    lget (partitionGo less l a b pivot).1 (partitionGo less l a b pivot).2.1 = lget l pivot ∧
    (∀ k, a ≤ k → k < (partitionGo less l a b pivot).2.1 →
      less (lget (partitionGo less l a b pivot).1 k) (lget l pivot) = true) ∧
    (∀ k, (partitionGo less l a b pivot).2.1 < k → k < b →
      less (lget (partitionGo less l a b pivot).1 k) (lget l pivot) = false) := by
  have halen : a < l.length := by omega
  have hplen : pivot < l.length := by omega
  have hperm0 : RangePerm a b l (lswap l a pivot) :=
    rangePerm_lswap l (le_refl a) (by omega) hpa hpb hbl
  set l0 := lswap l a pivot with hl0
  have h0len : b ≤ l0.length := by
    rw [hperm0.1]
    exact hbl
  have hpv : lget l0 a = lget l pivot := lget_lswap_fst l halen hplen
  obtain ⟨hsi1, hsi2, hsiR, hsiS⟩ :=
    partScanI_spec less (b + 1) l0 (a + 1) (b - 1) a (by omega) (by omega)
  obtain ⟨hsj1, hsj2, hsjR, hsjS⟩ :=
    partScanJ_spec less (b + 1) l0 (partScanI less (b + 1) l0 (a + 1) (b - 1) a)
      (b - 1) a (by omega) hsi2 (by omega)
  have heq : partitionGo less l a b pivot =
      (let i0 := partScanI less (b + 1) l0 (a + 1) (b - 1) a
       let j0 := partScanJ less (b + 1) l0 i0 (b - 1) a
       if j0 < i0 then (lswap l0 j0 a, j0, true)
       else partLoop less (b + 1) (b + 1) (lswap l0 i0 j0) (i0 + 1) (j0 - 1) a) := rfl
  rw [heq]
  dsimp only
  set i0 := partScanI less (b + 1) l0 (a + 1) (b - 1) a with hi0
  set j0 := partScanJ less (b + 1) l0 i0 (b - 1) a with hj0
  by_cases hcross : j0 < i0
  · rw [if_pos hcross]
    dsimp only
    have hj0a : a ≤ j0 := by omega
    have hj0b : j0 < b := by omega
    have hj0len : j0 < l0.length := by omega
    have ha0len : a < l0.length := by omega
    have hperm : RangePerm a b l0 (lswap l0 j0 a) :=
      rangePerm_lswap l0 hj0a hj0b (le_refl a) (by omega) h0len
    refine ⟨hperm0.trans hperm, hj0a, hj0b, ?_, ?_, ?_⟩
    · rw [lget_lswap_fst l0 hj0len ha0len, hpv]
    · intro k hk1 hk2
      rw [← hpv]
      by_cases hka : k = a
      · subst hka
        rw [lget_lswap_snd l0 ha0len]
        exact hsiR j0 (by omega) (by omega)
      · rw [lget_lswap_other l0 (show k ≠ j0 by omega) hka]
        exact hsiR k (by omega) (by omega)
    · intro k hk1 hk2
      rw [← hpv, lget_lswap_other l0 (by omega) (by omega)]
      exact hsjR k hk1 (by omega)
  · rw [if_neg hcross]
    have hlt : i0 < j0 := by
      rcases Nat.lt_or_ge i0 j0 with h | h
      · exact h
      · have he : i0 = j0 := by omega
        have h1 := hsiS (by omega)
        have h2 := hsjS (by omega)
        rw [he] at h1
        rw [h1] at h2
        exact Bool.noConfusion h2
    have hi0len : i0 < l0.length := by omega
    have hj0len : j0 < l0.length := by omega
    set m := lswap l0 i0 j0 with hm
    have hperm : RangePerm a b l0 m :=
      rangePerm_lswap l0 (by omega) (by omega) (by omega) (by omega) h0len
    have hma : lget m a = lget l0 a :=
      lget_lswap_other l0 (by omega) (by omega)
    have hmlen : b ≤ m.length := by
      rw [hperm.1]
      exact h0len
    have hR1' : ∀ k, a + 1 ≤ k → k < i0 + 1 → less (lget m k) (lget m a) = true := by
      intro k hk1 hk2
      rw [hma]
      by_cases hki : k = i0
      · subst hki
        rw [lget_lswap_fst l0 hi0len hj0len]
        exact hsjS (by omega)
      · rw [lget_lswap_other l0 hki (by omega)]
        exact hsiR k (by omega) (by omega)
    have hR2' : ∀ k, j0 - 1 < k → k < b → less (lget m k) (lget m a) = false := by
      intro k hk1 hk2
      rw [hma]
      by_cases hkj : k = j0
      · subst hkj
        rw [lget_lswap_snd l0 hj0len]
        exact hsiS (by omega)
      · rw [lget_lswap_other l0 (by omega) hkj]
        exact hsjR k (by omega) (by omega)
    have hpl := partLoop_spec less (a := a) (b := b) (n := b + 1)
      (le_refl _) (b + 1) m (i0 + 1) (j0 - 1) (by omega) (by omega) (by omega)
      hmlen (by omega) hR1' hR2'
    rw [hma, hpv] at hpl
    exact ⟨(hperm0.trans hperm).trans hpl.1, hpl.2.1, hpl.2.2.1, hpl.2.2.2.1,
      hpl.2.2.2.2.1, hpl.2.2.2.2.2⟩

/-- The partitionEqual i-scan: it walks right over elements not greater
than the pivot slot a. -/
theorem peqScanI_spec (less : α → α → Bool) :
    ∀ (fuel : Nat) (l : List α) (i j a : Nat), i ≤ j + 1 → j + 2 ≤ fuel + i →
    i ≤ peqScanI less fuel l i j a ∧ peqScanI less fuel l i j a ≤ j + 1 ∧
    (∀ k, i ≤ k → k < peqScanI less fuel l i j a →
      less (lget l a) (lget l k) = false) ∧
    (peqScanI less fuel l i j a ≤ j →
      less (lget l a) (lget l (peqScanI less fuel l i j a)) = true) := by
  intro fuel
  induction fuel with
  | zero =>
    intro l i j a h1 h2
    exact ((by omega : False)).elim
  | succ f ih =>
    intro l i j a h1 h2
    rw [peqScanI]
    by_cases hc : i ≤ j ∧ less (lget l a) (lget l i) = false
    · rw [if_pos hc]
      have := ih l (i + 1) j a (by omega) (by omega)
      refine ⟨by omega, this.2.1, fun k hk1 hk2 => ?_, this.2.2.2⟩
      by_cases hk : k = i
      · subst hk
        exact hc.2
      · exact this.2.2.1 k (by omega) hk2
    · rw [if_neg hc]
      refine ⟨le_refl i, h1, fun k hk1 hk2 => by omega, fun h => ?_⟩
      cases hx : less (lget l a) (lget l i) with
      | false => exact absurd ⟨h, hx⟩ hc
      | true => rfl

/-- The partitionEqual j-scan: it walks left over elements strictly greater
than the pivot slot a. -/
theorem peqScanJ_spec (less : α → α → Bool) :
    ∀ (fuel : Nat) (l : List α) (i j a : Nat), 1 ≤ i → i ≤ j + 1 → j + 2 ≤ fuel + i →
    peqScanJ less fuel l i j a ≤ j ∧ i ≤ peqScanJ less fuel l i j a + 1 ∧
    (∀ k, peqScanJ less fuel l i j a < k → k ≤ j →
      less (lget l a) (lget l k) = true) ∧
    (i ≤ peqScanJ less fuel l i j a →
      less (lget l a) (lget l (peqScanJ less fuel l i j a)) = false) := by
  intro fuel
  induction fuel with
  | zero =>
    intro l i j a h0 h1 h2
    exact ((by omega : False)).elim
  | succ f ih =>
    intro l i j a h0 h1 h2
    rw [peqScanJ]
    by_cases hc : i ≤ j ∧ less (lget l a) (lget l j) = true
    · rw [if_pos hc]
      have := ih l i (j - 1) a h0 (by omega) (by omega)
      refine ⟨by omega, by omega, fun k hk1 hk2 => ?_, this.2.2.2⟩
      by_cases hk : k = j
      · subst hk
        exact hc.2
      · exact this.2.2.1 k hk1 (by omega)
    · rw [if_neg hc]
      refine ⟨le_refl j, h1, fun k hk1 hk2 => by omega, fun h => ?_⟩
      cases hx : less (lget l a) (lget l j) with
      | false => rfl
      | true => exact absurd ⟨h, hx⟩ hc

/-- The partitionEqual swap loop: elements equal to the pivot slot end up
before the returned index, strictly greater ones after it. -/
theorem peqLoop_spec (less : α → α → Bool) {a b n : Nat} (hn : b + 1 ≤ n) :
    ∀ (fuel : Nat) (l : List α) (i j : Nat),
    a + 1 ≤ i → i ≤ j + 1 → j < b → b ≤ l.length → j + 2 ≤ fuel + i →
    (∀ k, a + 1 ≤ k → k < i → less (lget l a) (lget l k) = false) →
    (∀ k, j < k → k < b → less (lget l a) (lget l k) = true) →
    RangePerm a b l (peqLoop less fuel n l i j a).1 ∧
    a + 1 ≤ (peqLoop less fuel n l i j a).2 ∧ (peqLoop less fuel n l i j a).2 ≤ b ∧
    lget (peqLoop less fuel n l i j a).1 a = lget l a ∧
    (∀ k, a + 1 ≤ k → k < (peqLoop less fuel n l i j a).2 →
      less (lget l a) (lget (peqLoop less fuel n l i j a).1 k) = false) ∧
    (∀ k, (peqLoop less fuel n l i j a).2 ≤ k → k < b →
      less (lget l a) (lget (peqLoop less fuel n l i j a).1 k) = true) := by
  intro fuel
  induction fuel with
  | zero =>
    intro l i j hi hij hjb hbl hfuel hE1 hE2
    exact ((by omega : False)).elim
  | succ f ih =>
    intro l i j hi hij hjb hbl hfuel hE1 hE2
    obtain ⟨hsi1, hsi2, hsiR, hsiS⟩ :=
      peqScanI_spec less n l i j a hij (by omega)
    obtain ⟨hsj1, hsj2, hsjR, hsjS⟩ :=
      peqScanJ_spec less n l (peqScanI less n l i j a) j a
        (by omega) hsi2 (by omega)
    have heq : peqLoop less (f + 1) n l i j a =
        (let i' := peqScanI less n l i j a
         let j' := peqScanJ less n l i' j a
         if j' < i' then (l, i')
         else peqLoop less f n (lswap l i' j') (i' + 1) (j' - 1) a) := rfl
    rw [heq]
    dsimp only
    set i' := peqScanI less n l i j a with hidef
    set j' := peqScanJ less n l i' j a with hjdef
    by_cases hcross : j' < i'
    · rw [if_pos hcross]
      dsimp only
      refine ⟨RangePerm.refl a b l, by omega, by omega, rfl, ?_, ?_⟩
      · intro k hk1 hk2
        by_cases hki : k < i
        · exact hE1 k hk1 hki
        · exact hsiR k (by omega) hk2
      · intro k hk1 hk2
        by_cases hkj : k ≤ j
        · exact hsjR k (by omega) hkj
        · exact hE2 k (by omega) hk2
    · rw [if_neg hcross]
      have hlt : i' < j' := by
        rcases Nat.lt_or_ge i' j' with h | h
        · exact h
        · have he : i' = j' := by omega
          have h1 := hsiS (by omega)
          have h2 := hsjS (by omega)
          rw [he] at h1
          rw [h1] at h2
          exact Bool.noConfusion h2
      have hi'len : i' < l.length := by omega
      have hj'len : j' < l.length := by omega
      set m := lswap l i' j' with hm
      have hperm : RangePerm a b l m :=
        rangePerm_lswap l (by omega) (by omega) (by omega) (by omega) hbl
      have hma : lget m a = lget l a :=
        lget_lswap_other l (by omega) (by omega)
      have hmlen : b ≤ m.length := by
        rw [hperm.1]
        exact hbl
      have hE1' : ∀ k, a + 1 ≤ k → k < i' + 1 → less (lget m a) (lget m k) = false := by
        intro k hk1 hk2
        rw [hma]
        by_cases hki : k = i'
        · subst hki
          rw [lget_lswap_fst l hi'len hj'len]
          exact hsjS (by omega)
        · rw [lget_lswap_other l hki (by omega)]
          by_cases hkl : k < i
          · exact hE1 k hk1 hkl
          · exact hsiR k (by omega) (by omega)
      have hE2' : ∀ k, j' - 1 < k → k < b → less (lget m a) (lget m k) = true := by
        intro k hk1 hk2
        rw [hma]
        by_cases hkj : k = j'
        · subst hkj
          rw [lget_lswap_snd l hj'len]
          exact hsiS (by omega)
        · rw [lget_lswap_other l (by omega) hkj]
          by_cases hkup : k ≤ j
          · exact hsjR k (by omega) hkup
          · exact hE2 k (by omega) hk2
      have := ih m (i' + 1) (j' - 1) (by omega) (by omega) (by omega) hmlen
        (by omega) hE1' hE2'
      rw [hma] at this
      exact ⟨hperm.trans this.1, this.2.1, this.2.2.1, this.2.2.2.1,
        this.2.2.2.2.1, this.2.2.2.2.2⟩

/-- partitionEqual_func: the run equal to the element at index pivot moves
to the front of [a, b); everything from the returned index on is strictly
greater. -/
theorem partitionEqualGo_spec (less : α → α → Bool) {a b pivot : Nat} (l : List α) (hab : a < b)
    (hbl : b ≤ l.length) (hpa : a ≤ pivot) (hpb : pivot < b) :
    RangePerm a b l (partitionEqualGo less l a b pivot).1 ∧
    a + 1 ≤ (partitionEqualGo less l a b pivot).2 ∧
    (partitionEqualGo less l a b pivot).2 ≤ b ∧
    lget (partitionEqualGo less l a b pivot).1 a = lget l pivot ∧
    (∀ k, a + 1 ≤ k → k < (partitionEqualGo less l a b pivot).2 →
      less (lget l pivot) (lget (partitionEqualGo less l a b pivot).1 k) = false) ∧
    (∀ k, (partitionEqualGo less l a b pivot).2 ≤ k → k < b →
      less (lget l pivot) (lget (partitionEqualGo less l a b pivot).1 k) = true) := by
  have halen : a < l.length := by omega
  have hplen : pivot < l.length := by omega
  have hperm0 : RangePerm a b l (lswap l a pivot) :=
    rangePerm_lswap l (le_refl a) (by omega) hpa hpb hbl
  set l0 := lswap l a pivot with hl0
  have h0len : b ≤ l0.length := by
    rw [hperm0.1]
    exact hbl
  have hpv : lget l0 a = lget l pivot := lget_lswap_fst l halen hplen
  have heq : partitionEqualGo less l a b pivot =
      peqLoop less (b + 1) (b + 1) l0 (a + 1) (b - 1) a := rfl
  rw [heq]
  have hpl := peqLoop_spec less (a := a) (b := b) (n := b + 1)
    (le_refl _) (b + 1) l0 (a + 1) (b - 1) (le_refl _) (by omega) (by omega)
    h0len (by omega) (fun k h1 h2 => by omega) (fun k h1 h2 => by omega)
  rw [hpv] at hpl
  exact ⟨hperm0.trans hpl.1, hpl.2.1, hpl.2.2.1, hpl.2.2.2.1,
    hpl.2.2.2.2.1, hpl.2.2.2.2.2⟩

end KeyFacts

section PivotFacts

variable {α : Type} [Inhabited α] (less : α → α → Bool)

/-- order2_func returns its two inputs, in one order or the other. -/
theorem order2Go_cases (l : List α) (x y s : Nat) :
    order2Go less l x y s = (x, y, s) ∨ order2Go less l x y s = (y, x, s + 1) := by
  unfold order2Go
  split
  · exact Or.inr rfl
  · exact Or.inl rfl

/-- First output of order2_func is one of its inputs. -/
theorem order2Go_fst_mem (l : List α) (x y s : Nat) :
    (order2Go less l x y s).1 = x ∨ (order2Go less l x y s).1 = y := by
  rcases order2Go_cases less l x y s with h | h <;> rw [h]
  · exact Or.inl rfl
  · exact Or.inr rfl

/-- Second output of order2_func is one of its inputs. -/
theorem order2Go_snd_mem (l : List α) (x y s : Nat) :
    (order2Go less l x y s).2.1 = x ∨ (order2Go less l x y s).2.1 = y := by
  rcases order2Go_cases less l x y s with h | h <;> rw [h]
  · exact Or.inr rfl
  · exact Or.inl rfl

/-- median_func returns one of its three input indices. -/
theorem medianGo_fst_mem (l : List α) (a b c s : Nat) :
    (medianGo less l a b c s).1 = a ∨ (medianGo less l a b c s).1 = b ∨
      (medianGo less l a b c s).1 = c := by
  have heq : (medianGo less l a b c s).1 =
      (order2Go less l (order2Go less l a b s).1
        (order2Go less l (order2Go less l a b s).2.1 c (order2Go less l a b s).2.2).1
        (order2Go less l (order2Go less l a b s).2.1 c (order2Go less l a b s).2.2).2.2).2.1 := rfl
  rw [heq]
  have m1 := order2Go_fst_mem less l a b s
  have m2 := order2Go_snd_mem less l a b s
  have m3 := order2Go_fst_mem less l (order2Go less l a b s).2.1 c
    (order2Go less l a b s).2.2
  have m4 := order2Go_snd_mem less l (order2Go less l a b s).1
    (order2Go less l (order2Go less l a b s).2.1 c (order2Go less l a b s).2.2).1
    (order2Go less l (order2Go less l a b s).2.1 c (order2Go less l a b s).2.2).2.2
  rcases m4 with h4 | h4 <;> rw [h4]
  · rcases m1 with h | h <;> rw [h]
    · exact Or.inl rfl
    · exact Or.inr (Or.inl rfl)
  · rcases m3 with h | h <;> rw [h]
    · rcases m2 with h' | h' <;> rw [h']
      · exact Or.inl rfl
      · exact Or.inr (Or.inl rfl)
    · exact Or.inr (Or.inr rfl)

/-- medianAdjacent_func returns an index within one of its argument. -/
theorem medianAdjGo_fst_mem (l : List α) (x s : Nat) :
    (medianAdjGo less l x s).1 = x - 1 ∨ (medianAdjGo less l x s).1 = x ∨
      (medianAdjGo less l x s).1 = x + 1 :=
  medianGo_fst_mem less l (x - 1) x (x + 1) s

/-- choosePivot_func picks an index inside [a, b) (ranges of length ≥ 13,
the only ones the main loop passes it). -/
theorem choosePivotGo_bounds (l : List α) {a b : Nat} (h13 : 13 ≤ b - a) :
    a ≤ (choosePivotGo less l a b).1 ∧ (choosePivotGo less l a b).1 < b := by
  have h8 : 8 ≤ b - a := by omega
  simp only [choosePivotGo]
  rw [if_pos h8]
  by_cases h50 : 50 ≤ b - a
  · rw [if_pos h50]
    rcases hma1 : medianAdjGo less l (a + (b - a) / 4 * 1) 0 with ⟨i1, s1⟩
    rcases hma2 : medianAdjGo less l (a + (b - a) / 4 * 2) s1 with ⟨j1, s2⟩
    rcases hma3 : medianAdjGo less l (a + (b - a) / 4 * 3) s2 with ⟨k1, s3⟩
    rcases hm : medianGo less l i1 j1 k1 s3 with ⟨m, s4⟩
    dsimp only
    have b1 := medianAdjGo_fst_mem less l (a + (b - a) / 4 * 1) 0
    rw [hma1] at b1
    have b2 := medianAdjGo_fst_mem less l (a + (b - a) / 4 * 2) s1
    rw [hma2] at b2
    have b3 := medianAdjGo_fst_mem less l (a + (b - a) / 4 * 3) s2
    rw [hma3] at b3
    have bm := medianGo_fst_mem less l i1 j1 k1 s3
    rw [hm] at bm
    dsimp only at b1 b2 b3 bm
    have hi1 : a + (b - a) / 4 * 1 - 1 ≤ i1 ∧ i1 ≤ a + (b - a) / 4 * 1 + 1 := by
      rcases b1 with h | h | h <;> omega
    have hj1 : a + (b - a) / 4 * 2 - 1 ≤ j1 ∧ j1 ≤ a + (b - a) / 4 * 2 + 1 := by
      rcases b2 with h | h | h <;> omega
    have hk1 : a + (b - a) / 4 * 3 - 1 ≤ k1 ∧ k1 ≤ a + (b - a) / 4 * 3 + 1 := by
      rcases b3 with h | h | h <;> omega
    rcases bm with h | h | h <;> omega
  · rw [if_neg h50]
    rcases hm : medianGo less l (a + (b - a) / 4 * 1) (a + (b - a) / 4 * 2)
      (a + (b - a) / 4 * 3) 0 with ⟨m, s⟩
    dsimp only
    have bm := medianGo_fst_mem less l (a + (b - a) / 4 * 1)
      (a + (b - a) / 4 * 2) (a + (b - a) / 4 * 3) 0
    rw [hm] at bm
    dsimp only at bm
    rcases bm with h | h | h <;> omega

/-- The reverseRange loop is a range rearrangement. -/
theorem revRange_perm {a b : Nat} :
    ∀ (fuel : Nat) (l : List α) (i j : Nat), a ≤ i → j < b → b ≤ l.length →
    RangePerm a b l (revRange fuel l i j) := by
  intro fuel
  induction fuel with
  | zero =>
    intro l i j h1 h2 h3
    exact RangePerm.refl a b l
  | succ f ih =>
    intro l i j h1 h2 h3
    rw [revRange]
    by_cases hc : i < j
    · rw [if_pos hc]
      have hperm : RangePerm a b l (lswap l i j) :=
        rangePerm_lswap l h1 (by omega) (by omega) h2 h3
      have hlen : b ≤ (lswap l i j).length := by
        rw [hperm.1]
        exact h3
      exact hperm.trans (ih (lswap l i j) (i + 1) (j - 1) (by omega) (by omega) hlen)
    · rw [if_neg hc]
      exact RangePerm.refl a b l

/-- reverseRange_func is a range rearrangement. -/
theorem reverseRangeGo_perm (l : List α) {a b : Nat} (hab : a < b)
    (hbl : b ≤ l.length) : RangePerm a b l (reverseRangeGo l a b) :=
  revRange_perm (b - a) l a (b - 1) (le_refl a) (by omega) hbl

/-- breakPatterns_func is a range rearrangement. -/
theorem breakPatternsGo_perm (l : List α) {a b : Nat} (hab : b - a ≤ b)
    (hbl : b ≤ l.length) : RangePerm a b l (breakPatternsGo l a b) := by
  simp only [breakPatternsGo]
  by_cases h8 : 8 ≤ b - a
  · rw [if_pos h8]
    have hmask : nextPowerOfTwo (b - a) ≤ 2 * (b - a) := by
      unfold nextPowerOfTwo bitsLen
      rw [if_neg (show ¬(b - a = 0) by omega), Nat.shiftLeft_eq, pow_succ]
      have := Nat.log2_self_le (show b - a ≠ 0 by omega)
      omega
    have hother : ∀ r : Nat,
        (if b - a ≤ Nat.land r (nextPowerOfTwo (b - a) - 1)
         then Nat.land r (nextPowerOfTwo (b - a) - 1) - (b - a)
         else Nat.land r (nextPowerOfTwo (b - a) - 1)) < b - a := by
      intro r
      have hle : Nat.land r (nextPowerOfTwo (b - a) - 1) ≤ nextPowerOfTwo (b - a) - 1 :=
        Nat.and_le_right
      by_cases hc : b - a ≤ Nat.land r (nextPowerOfTwo (b - a) - 1)
      · rw [if_pos hc]
        omega
      · rw [if_neg hc]
        omega
    have hq : 2 ≤ (b - a) / 4 := by omega
    have hmid1 : a + (b - a) / 4 * 2 + 1 < b := by omega
    have h1 := hother (xorshiftNext (b - a))
    have h2 := hother (xorshiftNext (xorshiftNext (b - a)))
    have h3 := hother (xorshiftNext (xorshiftNext (xorshiftNext (b - a))))
    have hp1 : RangePerm a b l
        (lswap l (a + (b - a) / 4 * 2 - 1)
          (a + (if b - a ≤ Nat.land (xorshiftNext (b - a)) (nextPowerOfTwo (b - a) - 1)
                then Nat.land (xorshiftNext (b - a)) (nextPowerOfTwo (b - a) - 1) - (b - a)
                else Nat.land (xorshiftNext (b - a)) (nextPowerOfTwo (b - a) - 1)))) :=
      rangePerm_lswap l (by omega) (by omega) (by omega) (by omega) hbl
    set l1 := lswap l (a + (b - a) / 4 * 2 - 1)
      (a + (if b - a ≤ Nat.land (xorshiftNext (b - a)) (nextPowerOfTwo (b - a) - 1)
            then Nat.land (xorshiftNext (b - a)) (nextPowerOfTwo (b - a) - 1) - (b - a)
            else Nat.land (xorshiftNext (b - a)) (nextPowerOfTwo (b - a) - 1))) with hl1
    have hlen1 : b ≤ l1.length := by
      rw [hp1.1]
      exact hbl
    have hp2 : RangePerm a b l1
        (lswap l1 (a + (b - a) / 4 * 2)
          (a + (if b - a ≤ Nat.land (xorshiftNext (xorshiftNext (b - a))) (nextPowerOfTwo (b - a) - 1)
                then Nat.land (xorshiftNext (xorshiftNext (b - a))) (nextPowerOfTwo (b - a) - 1) - (b - a)
                else Nat.land (xorshiftNext (xorshiftNext (b - a))) (nextPowerOfTwo (b - a) - 1)))) :=
      rangePerm_lswap l1 (by omega) (by omega) (by omega) (by omega) hlen1
    set l2 := lswap l1 (a + (b - a) / 4 * 2)
      (a + (if b - a ≤ Nat.land (xorshiftNext (xorshiftNext (b - a))) (nextPowerOfTwo (b - a) - 1)
            then Nat.land (xorshiftNext (xorshiftNext (b - a))) (nextPowerOfTwo (b - a) - 1) - (b - a)
            else Nat.land (xorshiftNext (xorshiftNext (b - a))) (nextPowerOfTwo (b - a) - 1))) with hl2
    have hlen2 : b ≤ l2.length := by
      rw [hp2.1]
      exact hlen1
    have hp3 : RangePerm a b l2
        (lswap l2 (a + (b - a) / 4 * 2 + 1)
          (a + (if b - a ≤ Nat.land (xorshiftNext (xorshiftNext (xorshiftNext (b - a)))) (nextPowerOfTwo (b - a) - 1)
                then Nat.land (xorshiftNext (xorshiftNext (xorshiftNext (b - a)))) (nextPowerOfTwo (b - a) - 1) - (b - a)
                else Nat.land (xorshiftNext (xorshiftNext (xorshiftNext (b - a)))) (nextPowerOfTwo (b - a) - 1)))) :=
      rangePerm_lswap l2 (by omega) (by omega) (by omega) (by omega) hlen2
    exact (hp1.trans hp2).trans hp3
  · rw [if_neg h8]
    exact RangePerm.refl a b l

end PivotFacts

section HeapFacts

variable {α : Type} [Inhabited α] {less : α → α → Bool} {key : α → Int}

/-- The root is in its own subtree. -/
theorem isDescendant_self (r : Nat) : isDescendant r r := by
  refine ⟨0, ?_, ?_⟩ <;> simp only [pow_zero, one_mul] <;> omega

/-- Subtree members lie at or after the root. -/
theorem isDescendant_le {s q : Nat} (h : isDescendant s q) : s ≤ q := by
  obtain ⟨d, h1, h2⟩ := h
  have h3 : s + 1 ≤ 2 ^ d * (s + 1) := Nat.le_mul_of_pos_left _ (Nat.two_pow_pos d)
  omega

/-- A subtree member is the root or lies past the root's first child. -/
theorem isDescendant_cases {s q : Nat} (h : isDescendant s q) :
    q = s ∨ 2 * s + 1 ≤ q := by
  obtain ⟨d, h1, h2⟩ := h
  cases d with
  | zero =>
    left
    simp only [pow_zero, one_mul] at h1 h2
    omega
  | succ e =>
    right
    have hpow : (2 : Nat) ^ (e + 1) * (s + 1) = 2 * (2 ^ e * (s + 1)) := by
      rw [pow_succ]
      ring
    rw [hpow] at h1
    have h3 : s + 1 ≤ 2 ^ e * (s + 1) := Nat.le_mul_of_pos_left _ (Nat.two_pow_pos e)
    omega

/-- The subtree of a child is inside the subtree of the parent. -/
theorem isDescendant_child {r c q : Nat} (hc : c = 2 * r + 1 ∨ c = 2 * r + 2)
    (h : isDescendant c q) : isDescendant r q := by
  obtain ⟨d, h1, h2⟩ := h
  have hD : (2 : Nat) ^ (d + 1) = 2 * 2 ^ d := by
    rw [pow_succ]
    ring
  have hX : 0 < 2 ^ d := Nat.two_pow_pos d
  rcases hc with rfl | rfl
  · have he : (2 : Nat) ^ d * (2 * r + 1 + 1) = 2 ^ (d + 1) * (r + 1) := by
      rw [pow_succ]
      ring
    rw [he] at h1 h2
    exact ⟨d + 1, by omega, by omega⟩
  · have he : (2 : Nat) ^ d * (2 * r + 2 + 1) = 2 ^ (d + 1) * (r + 1) + 2 ^ d := by
      rw [pow_succ]
      ring
    rw [he] at h1 h2
    exact ⟨d + 1, by omega, by omega⟩

/-- A strict subtree member's tree parent stays in the subtree and is
closer to the root. -/
theorem isDescendant_parent {s q : Nat} (h : isDescendant s q) (hne : q ≠ s) :
    isDescendant s ((q - 1) / 2) ∧ (q - 1) / 2 < q := by
  obtain ⟨d, h1, h2⟩ := h
  cases d with
  | zero =>
    simp only [pow_zero, one_mul] at h1 h2
    exact absurd (by omega : q = s) hne
  | succ e =>
    have hpow : (2 : Nat) ^ (e + 1) * (s + 1) = 2 * (2 ^ e * (s + 1)) := by
      rw [pow_succ]
      ring
    have hD : (2 : Nat) ^ (e + 1) = 2 * 2 ^ e := by
      rw [pow_succ]
      ring
    rw [hpow] at h1 h2
    have h3 : s + 1 ≤ 2 ^ e * (s + 1) := Nat.le_mul_of_pos_left _ (Nat.two_pow_pos e)
    have hX : 0 < 2 ^ e := Nat.two_pow_pos e
    refine ⟨⟨e, ?_, ?_⟩, ?_⟩ <;> omega

/-- Every tree position is in the subtree of the root 0. -/
theorem isDescendant_zero (p : Nat) : isDescendant 0 p := by
  have h1 : 2 ^ Nat.log2 (p + 1) ≤ p + 1 := Nat.log2_self_le (by omega)
  have h2 : p + 1 < 2 ^ (Nat.log2 (p + 1) + 1) :=
    (Nat.log2_lt (by omega)).mp (Nat.lt_succ_self _)
  have hD : (2 : Nat) ^ (Nat.log2 (p + 1) + 1) = 2 * 2 ^ Nat.log2 (p + 1) := by
    rw [pow_succ]
    ring
  exact ⟨Nat.log2 (p + 1), by omega, by omega⟩

/-- In a heap, every subtree member's key is bounded by the subtree root's
key (by chaining the parent links). -/
theorem subtree_max (hless : ∀ x y, less x y = decide (key x < key y))
    {l : List α} {r s hi first : Nat} (hheap : heapAbove less l r hi first)
    (hrs : r ≤ s) :
    ∀ q, isDescendant s q → q < hi →
      key (lget l (first + q)) ≤ key (lget l (first + s)) := by
  suffices h : ∀ n q, q ≤ n → isDescendant s q → q < hi →
      key (lget l (first + q)) ≤ key (lget l (first + s)) by
    intro q
    exact h q q (le_refl q)
  intro n
  induction n with
  | zero =>
    intro q hq0 hdesc hq
    have hsq : s ≤ q := isDescendant_le hdesc
    have hqs : q = s := by omega
    subst hqs
    exact le_refl _
  | succ n ihn =>
    intro q hqn hdesc hq
    by_cases hqs : q = s
    · subst hqs
      exact le_refl _
    · obtain ⟨hdp, hlt⟩ := isDescendant_parent hdesc hqs
      have hsq : s ≤ q := isDescendant_le hdesc
      have hsp : s ≤ (q - 1) / 2 := isDescendant_le hdp
      have hpair := hheap q hq (by omega) (by omega)
      have h1 : key (lget l (first + q)) ≤ key (lget l (first + (q - 1) / 2)) :=
        (less_false_iff hless _ _).mp hpair
      have h2 := ihn ((q - 1) / 2) (by omega) hdp (by omega)
      omega

/-- siftDown_func is a no-op fulfilling its contract when the root has no
child inside [0, hi). -/
theorem siftDown_done {l : List α} {root hi first : Nat}
    (hheap : heapAbove less l (root + 1) hi first) (hnb : hi ≤ 2 * root + 1) :
    SiftDownConcl less l l root hi first := by
  refine ⟨rfl, fun q _ => rfl, fun P hP p hp1 hp2 => hP p hp1 hp2, ?_⟩
  intro c hc hc0 hcr
  by_cases hcr' : root + 1 ≤ (c - 1) / 2
  · exact hheap c hc hc0 hcr'
  · exfalso
    omega

/-- siftDown_func fulfils its contract when the root already dominates its
larger child. -/
theorem siftDown_noswap (hless : ∀ x y, less x y = decide (key x < key y))
    {l : List α} {root hi first child : Nat}
    (hheap : heapAbove less l (root + 1) hi first)
    (hdom : ∀ c, (c = 2 * root + 1 ∨ c = 2 * root + 2) → c < hi →
      key (lget l (first + c)) ≤ key (lget l (first + child)))
    (hsw : less (lget l (first + root)) (lget l (first + child)) = false) :
    SiftDownConcl less l l root hi first := by
  refine ⟨rfl, fun q _ => rfl, fun P hP p hp1 hp2 => hP p hp1 hp2, ?_⟩
  intro c hc hc0 hcr
  by_cases hcr' : root + 1 ≤ (c - 1) / 2
  · exact hheap c hc hc0 hcr'
  · have hcv : c = 2 * root + 1 ∨ c = 2 * root + 2 := by omega
    have h1 : key (lget l (first + c)) ≤ key (lget l (first + child)) :=
      hdom c hcv hc
    have h2 : key (lget l (first + child)) ≤ key (lget l (first + root)) :=
      (less_false_iff hless _ _).mp hsw
    rw [show (c - 1) / 2 = root by omega, less_false_iff hless]
    omega

/-- The swap-and-recurse step of siftDown_func fulfils the contract of the
calling root, given the contract of the recursive call. -/
theorem siftDownGo_aux (hless : ∀ x y, less x y = decide (key x < key y))
    (fuel : Nat)
    (ih : ∀ (l : List α) (root hi first : Nat), hi ≤ fuel + root →
      first + hi ≤ l.length → heapAbove less l (root + 1) hi first →
      SiftDownConcl less l (siftDownGo less fuel l root hi first) root hi first)
    (l : List α) (root hi first child : Nat)
    (hlen : first + hi ≤ l.length) (hfuel : hi ≤ fuel + 1 + root)
    (hheap : heapAbove less l (root + 1) hi first)
    (hch : child = 2 * root + 1 ∨ child = 2 * root + 2) (hchhi : child < hi)
    (hdom : ∀ c, (c = 2 * root + 1 ∨ c = 2 * root + 2) → c < hi →
      key (lget l (first + c)) ≤ key (lget l (first + child)))
    (hsw : less (lget l (first + root)) (lget l (first + child)) = true) :
    SiftDownConcl less l
      (siftDownGo less fuel (lswap l (first + root) (first + child)) child hi first)
      root hi first := by
  have hchle : 2 * root + 1 ≤ child ∧ child ≤ 2 * root + 2 := by
    rcases hch with h | h <;> omega
  have hrc : root < child := by omega
  have hrhi : root < hi := by omega
  have hposr : first + root < l.length := by omega
  have hposc : first + child < l.length := by omega
  set l1 := lswap l (first + root) (first + child) with hl1
  have hlen1 : first + hi ≤ l1.length := by
    rw [hl1, length_lswap]
    exact hlen
  have hheap1 : heapAbove less l1 (child + 1) hi first := by
    intro c hc hc0 hcr
    have e1 : lget l1 (first + (c - 1) / 2) = lget l (first + (c - 1) / 2) := by
      rw [hl1]
      exact lget_lswap_other l (by omega) (by omega)
    have e2 : lget l1 (first + c) = lget l (first + c) := by
      rw [hl1]
      exact lget_lswap_other l (by omega) (by omega)
    rw [e1, e2]
    exact hheap c hc hc0 (by omega)
  obtain ⟨ihlen, ihun, ihpres, ihheap⟩ := ih l1 child hi first (by omega) hlen1 hheap1
  set l2 := siftDownGo less fuel l1 child hi first with hl2
  have hroot2 : lget l2 (first + root) = lget l (first + child) := by
    have h1 : lget l2 (first + root) = lget l1 (first + root) := by
      apply ihun
      refine Or.inr (Or.inr ?_)
      rw [show first + root - first = root by omega]
      intro hd
      have := isDescendant_le hd
      omega
    rw [h1, hl1, lget_lswap_fst l hposr hposc]
  refine ⟨?_, ?_, ?_, ?_⟩
  · rw [ihlen, hl1, length_lswap]
  · intro q hq
    have hq1 : lget l2 q = lget l1 q := by
      apply ihun
      rcases hq with h | h | h
      · exact Or.inl h
      · exact Or.inr (Or.inl h)
      · refine Or.inr (Or.inr ?_)
        intro hd
        exact h (isDescendant_child hch hd)
    rw [hq1, hl1]
    apply lget_lswap_other
    · rcases hq with h | h | h
      · omega
      · omega
      · intro he
        apply h
        rw [show q - first = root by omega]
        exact isDescendant_self root
    · rcases hq with h | h | h
      · omega
      · omega
      · intro he
        apply h
        rw [show q - first = child by omega]
        exact isDescendant_child hch (isDescendant_self child)
  · intro P hP p hp1 hp2
    by_cases hdc : isDescendant child p
    · refine ihpres P ?_ p hdc hp2
      intro p' hp1' hp2'
      by_cases hpc : p' = child
      · subst hpc
        rw [hl1, lget_lswap_snd l hposc]
        exact hP root (isDescendant_self root) hrhi
      · have hgt : child ≤ p' := isDescendant_le hp1'
        rw [hl1, lget_lswap_other l (by omega) (by omega)]
        exact hP p' (isDescendant_child hch hp1') hp2'
    · have h1 : lget l2 (first + p) = lget l1 (first + p) := by
        apply ihun
        refine Or.inr (Or.inr ?_)
        rw [show first + p - first = p by omega]
        exact hdc
      rw [h1]
      by_cases hpr : p = root
      · subst hpr
        rw [hl1, lget_lswap_fst l hposr hposc]
        exact hP child (isDescendant_child hch (isDescendant_self child)) hchhi
      · have hpc : p ≠ child := fun he => hdc (by rw [he]; exact isDescendant_self child)
        rw [hl1, lget_lswap_other l (by omega) (by omega)]
        exact hP p hp1 hp2
  · intro c hc hc0 hcr
    by_cases hcc : child ≤ (c - 1) / 2
    · exact ihheap c hc hc0 hcc
    · by_cases hcr0 : (c - 1) / 2 = root
      · by_cases hcchild : c = child
        · subst hcchild
          rw [hcr0, hroot2, less_false_iff hless]
          refine ihpres (fun x => key x ≤ key (lget l (first + c))) ?_ c
            (isDescendant_self c) hc
          intro p' hp1' hp2'
          by_cases hpc : p' = c
          · subst hpc
            rw [hl1, lget_lswap_snd l hposc]
            have := (less_true_iff hless _ _).mp hsw
            omega
          · have hgt : c ≤ p' := isDescendant_le hp1'
            rw [hl1, lget_lswap_other l (by omega) (by omega)]
            exact subtree_max hless hheap (by omega) p' hp1' hp2'
        · rw [hcr0]
          have hcv : c = 2 * root + 1 ∨ c = 2 * root + 2 := by omega
          have hcnd : ¬ isDescendant child c := by
            intro hd
            rcases isDescendant_cases hd with h | h
            · exact hcchild h
            · omega
          have hc2 : lget l2 (first + c) = lget l (first + c) := by
            have h1 : lget l2 (first + c) = lget l1 (first + c) := by
              apply ihun
              refine Or.inr (Or.inr ?_)
              rw [show first + c - first = c by omega]
              exact hcnd
            rw [h1, hl1]
            exact lget_lswap_other l (by omega) (by omega)
          rw [hc2, hroot2, less_false_iff hless]
          exact hdom c hcv hc
      · have hp1 : root + 1 ≤ (c - 1) / 2 := by omega
        have hpc : (c - 1) / 2 < child := by omega
        have hcbig : 2 * root + 3 ≤ c := by omega
        have hcnotd : ¬ isDescendant child c := by
          intro hd
          rcases isDescendant_cases hd with h | h
          · omega
          · omega
        have hpnotd : ¬ isDescendant child ((c - 1) / 2) := by
          intro hd
          have := isDescendant_le hd
          omega
        have e1 : lget l2 (first + (c - 1) / 2) = lget l (first + (c - 1) / 2) := by
          have h1 : lget l2 (first + (c - 1) / 2) = lget l1 (first + (c - 1) / 2) := by
            apply ihun
            refine Or.inr (Or.inr ?_)
            rw [show first + (c - 1) / 2 - first = (c - 1) / 2 by omega]
            exact hpnotd
          rw [h1, hl1]
          exact lget_lswap_other l (by omega) (by omega)
        have e2 : lget l2 (first + c) = lget l (first + c) := by
          have h1 : lget l2 (first + c) = lget l1 (first + c) := by
            apply ihun
            refine Or.inr (Or.inr ?_)
            rw [show first + c - first = c by omega]
            exact hcnotd
          rw [h1, hl1]
          exact lget_lswap_other l (by omega) (by omega)
        rw [e1, e2]
        exact hheap c hc hc0 hp1

/-- siftDown_func establishes its contract (fuel is at least the range
size beyond the root, as at every call site). -/
theorem siftDownGo_spec (hless : ∀ x y, less x y = decide (key x < key y)) :
    ∀ (fuel : Nat) (l : List α) (root hi first : Nat),
    hi ≤ fuel + root → first + hi ≤ l.length →
    heapAbove less l (root + 1) hi first →
    SiftDownConcl less l (siftDownGo less fuel l root hi first) root hi first := by
  intro fuel
  induction fuel with
  | zero =>
    intro l root hi first hf hl hh
    exact siftDown_done hh (by omega)
  | succ f ihf =>
    intro l root hi first hf hl hh
    simp only [siftDownGo]
    by_cases h1 : hi ≤ 2 * root + 1
    · rw [if_pos h1]
      exact siftDown_done hh h1
    · rw [if_neg h1]
      by_cases hsel : 2 * root + 1 + 1 < hi ∧
          less (lget l (first + (2 * root + 1))) (lget l (first + (2 * root + 1) + 1)) = true
      · rw [if_pos hsel]
        have hkey : key (lget l (first + (2 * root + 1))) <
            key (lget l (first + (2 * root + 1) + 1)) :=
          (less_true_iff hless _ _).mp hsel.2
        rw [show first + (2 * root + 1) + 1 = first + (2 * root + 1 + 1) by omega] at hkey
        have hdom : ∀ c, (c = 2 * root + 1 ∨ c = 2 * root + 2) → c < hi →
            key (lget l (first + c)) ≤ key (lget l (first + (2 * root + 1 + 1))) := by
          intro c hcv _
          rcases hcv with rfl | rfl
          · exact le_of_lt hkey
          · rw [show first + (2 * root + 2) = first + (2 * root + 1 + 1) by omega]
        by_cases hsw : less (lget l (first + root)) (lget l (first + (2 * root + 1 + 1))) = true
        · rw [if_pos hsw]
          exact siftDownGo_aux hless f ihf l root hi first (2 * root + 1 + 1) hl
            (by omega) hh (by omega) hsel.1 hdom hsw
        · rw [if_neg hsw]
          exact siftDown_noswap hless hh hdom (Bool.eq_false_iff.mpr hsw)
      · rw [if_neg hsel]
        have hc1 : 2 * root + 1 < hi := by omega
        have hdom : ∀ c, (c = 2 * root + 1 ∨ c = 2 * root + 2) → c < hi →
            key (lget l (first + c)) ≤ key (lget l (first + (2 * root + 1))) := by
          intro c hcv hchi
          rcases hcv with rfl | rfl
          · exact le_refl _
          · have hA : 2 * root + 1 + 1 < hi := by omega
            have hB : less (lget l (first + (2 * root + 1)))
                (lget l (first + (2 * root + 1) + 1)) = false :=
              Bool.eq_false_iff.mpr (fun ht => hsel ⟨hA, ht⟩)
            have hk := (less_false_iff hless _ _).mp hB
            rw [show first + (2 * root + 2) = first + (2 * root + 1) + 1 by omega]
            exact hk
        by_cases hsw : less (lget l (first + root)) (lget l (first + (2 * root + 1))) = true
        · rw [if_pos hsw]
          exact siftDownGo_aux hless f ihf l root hi first (2 * root + 1) hl
            (by omega) hh (Or.inl rfl) hc1 hdom hsw
        · rw [if_neg hsw]
          exact siftDown_noswap hless hh hdom (Bool.eq_false_iff.mpr hsw)

/-- siftDown_func is a rearrangement of [first, first + hi). -/
theorem siftDownGo_perm (hless : ∀ x y, less x y = decide (key x < key y))
    (fuel : Nat) (l : List α) (root hi first : Nat)
    (hf : hi ≤ fuel + root) (hl : first + hi ≤ l.length)
    (hh : heapAbove less l (root + 1) hi first) :
    RangePerm first (first + hi) l (siftDownGo less fuel l root hi first) := by
  obtain ⟨h1, h2, h3, _⟩ := siftDownGo_spec hless fuel l root hi first hf hl hh
  refine ⟨h1, fun i hi' => h2 i ?_, fun P hP i hi1 hi2 => ?_⟩
  · rcases hi' with h | h
    · exact Or.inl h
    · exact Or.inr (Or.inl h)
  · by_cases hd : isDescendant root (i - first)
    · rw [show i = first + (i - first) by omega]
      exact h3 P (fun p hp1 hp2 => hP (first + p) (by omega) (by omega)) (i - first)
        hd (by omega)
    · rw [h2 i (Or.inr (Or.inr hd))]
      exact hP i hi1 hi2

/-- The heapSort build loop turns [first, first + hi) into a max-heap while
rearranging only that range. -/
theorem heapBuild_spec (hless : ∀ x y, less x y = decide (key x < key y))
    (hi first : Nat) :
    ∀ (cnt : Nat) (l : List α), first + hi ≤ l.length →
    heapAbove less l cnt hi first →
    RangePerm first (first + hi) l (heapBuild less cnt l hi first) ∧
    heapAbove less (heapBuild less cnt l hi first) 0 hi first := by
  intro cnt
  induction cnt with
  | zero =>
    intro l hlen hh
    exact ⟨RangePerm.refl _ _ _, hh⟩
  | succ c ihc =>
    intro l hlen hh
    simp only [heapBuild]
    obtain ⟨hlen2, _, _, hheap2⟩ := siftDownGo_spec hless (hi + 1) l c hi first
      (by omega) hlen hh
    have hperm := siftDownGo_perm hless (hi + 1) l c hi first (by omega) hlen hh
    have hres := ihc (siftDownGo less (hi + 1) l c hi first) (by omega) hheap2
    exact ⟨hperm.trans hres.1, hres.2⟩

/-- The heapSort pop loop: with a max-heap of size c in front, the already
popped sorted tail behind it, and the boundary dominated by the tail, it
sorts the whole of [first, first + hi0) by a rearrangement. -/
theorem heapPop_spec (hless : ∀ x y, less x y = decide (key x < key y))
    (first hi0 : Nat) :
    ∀ (c : Nat) (l : List α), c ≤ hi0 → first + hi0 ≤ l.length →
    heapAbove less l 0 c first →
    sortedRange less l (first + c) (first + hi0) →
    (∀ i j, first ≤ i → i < first + c → first + c ≤ j → j < first + hi0 →
      less (lget l j) (lget l i) = false) →
    RangePerm first (first + hi0) l (heapPop less c l first) ∧
    sortedRange less (heapPop less c l first) first (first + hi0) := by
  intro c
  induction c with
  | zero =>
    intro l hc hlen hheap hsort hbound
    simp only [heapPop]
    refine ⟨RangePerm.refl _ _ _, ?_⟩
    intro i j h1 h2 h3
    exact hsort i j (by omega) h2 h3
  | succ c ihc =>
    intro l hc hlen hheap hsort hbound
    simp only [heapPop]
    have hflen : first + c < l.length := by omega
    have hffst : first < l.length := by omega
    set l1 := lswap l first (first + c) with hl1
    have hlen1 : l1.length = l.length := by
      rw [hl1]
      exact length_lswap l _ _
    have hmax : ∀ p, p < c + 1 → key (lget l (first + p)) ≤ key (lget l first) := by
      intro p hp
      have h := subtree_max hless (s := 0) hheap (le_refl 0) p (isDescendant_zero p) hp
      rw [Nat.add_zero] at h
      exact h
    have hheap1 : heapAbove less l1 1 c first := by
      intro c' hc' hc'0 hcr'
      have e1 : lget l1 (first + (c' - 1) / 2) = lget l (first + (c' - 1) / 2) := by
        rw [hl1]
        exact lget_lswap_other l (by omega) (by omega)
      have e2 : lget l1 (first + c') = lget l (first + c') := by
        rw [hl1]
        exact lget_lswap_other l (by omega) (by omega)
      rw [e1, e2]
      exact hheap c' (by omega) hc'0 (by omega)
    obtain ⟨hslen, hsun, hspres, hsheap⟩ := siftDownGo_spec hless (c + 2) l1 0 c first
      (by omega) (by omega) hheap1
    set l2 := siftDownGo less (c + 2) l1 0 c first with hl2
    have hperm2 : RangePerm first (first + c) l1 l2 :=
      siftDownGo_perm hless (c + 2) l1 0 c first (by omega) (by omega) hheap1
    have hsort2 : sortedRange less l2 (first + c) (first + hi0) := by
      have hsort1 : sortedRange less l1 (first + c) (first + hi0) := by
        intro i j h1 h2 h3
        by_cases hieq : i = first + c
        · subst hieq
          have ei : lget l1 (first + c) = lget l first := by
            rw [hl1]
            exact lget_lswap_snd l hflen
          have ej : lget l1 j = lget l j := by
            rw [hl1]
            exact lget_lswap_other l (by omega) (by omega)
          rw [ei, ej]
          exact hbound first j (le_refl first) (by omega) (by omega) h3
        · have ei : lget l1 i = lget l i := by
            rw [hl1]
            exact lget_lswap_other l (by omega) (by omega)
          have ej : lget l1 j = lget l j := by
            rw [hl1]
            exact lget_lswap_other l (by omega) (by omega)
          rw [ei, ej]
          exact hsort i j (by omega) h2 h3
      exact sortedRange_of_disjoint hsort1 hperm2 (Or.inr (le_refl _))
    have hbound2 : ∀ i j, first ≤ i → i < first + c → first + c ≤ j →
        j < first + hi0 → less (lget l2 j) (lget l2 i) = false := by
      intro i j h1 h2 h3 h4
      have hki : key (lget l2 i) ≤ key (lget l first) := by
        refine hperm2.2.2 (fun x => key x ≤ key (lget l first)) ?_ i h1 h2
        intro p hp1 hp2
        by_cases hpf : p = first
        · rw [hpf]
          have h : lget l1 first = lget l (first + c) := by
            rw [hl1]
            exact lget_lswap_fst l hffst hflen
          rw [h]
          exact hmax c (by omega)
        · have h : lget l1 p = lget l p := by
            rw [hl1]
            exact lget_lswap_other l (by omega) (by omega)
          rw [h]
          have hm := hmax (p - first) (by omega)
          rw [show first + (p - first) = p by omega] at hm
          exact hm
      have hj2 : lget l2 j = lget l1 j := hsun j (Or.inr (Or.inl h3))
      rw [hj2]
      by_cases hjeq : j = first + c
      · subst hjeq
        have h : lget l1 (first + c) = lget l first := by
          rw [hl1]
          exact lget_lswap_snd l hflen
        rw [h, less_false_iff hless]
        exact hki
      · have h : lget l1 j = lget l j := by
          rw [hl1]
          exact lget_lswap_other l (by omega) (by omega)
        rw [h, less_false_iff hless]
        have hfj : key (lget l first) ≤ key (lget l j) := by
          have hb := hbound first j (le_refl first) (by omega) (by omega) (by omega)
          exact (less_false_iff hless _ _).mp hb
        omega
    have hres := ihc l2 (by omega) (by omega) hsheap hsort2 hbound2
    have hp1 : RangePerm first (first + hi0) l l1 := by
      rw [hl1]
      exact rangePerm_lswap l (le_refl first) (by omega) (by omega) (by omega) (by omega)
    have hp2' : RangePerm first (first + hi0) l1 l2 :=
      hperm2.mono (le_refl first) (by omega)
    exact ⟨(hp1.trans hp2').trans hres.1, hres.2⟩

/-- heapSort_func sorts data[a:b] by a rearrangement of that range. -/
theorem heapSortGo_spec (hless : ∀ x y, less x y = decide (key x < key y))
    (l : List α) {a b : Nat} (hab : a ≤ b) (hbl : b ≤ l.length) :
    RangePerm a b l (heapSortGo less l a b) ∧
    sortedRange less (heapSortGo less l a b) a b := by
  simp only [heapSortGo]
  have hinit : heapAbove less l ((b - a - 1) / 2 + 1) (b - a) a := by
    intro c hc hc0 hcr
    exfalso
    omega
  have hbuild := heapBuild_spec hless (b - a) a ((b - a - 1) / 2 + 1) l (by omega) hinit
  set lB := heapBuild less ((b - a - 1) / 2 + 1) l (b - a) a with hlB
  have hlenB : lB.length = l.length := hbuild.1.1
  have hpop := heapPop_spec hless a (b - a) (b - a) lB (le_refl _) (by omega) hbuild.2
    (by intro i j h1 h2 h3; exfalso; omega)
    (by intro i j h1 h2 h3 h4; exfalso; omega)
  have hba : a + (b - a) = b := by omega
  rw [hba] at hbuild hpop
  exact ⟨hbuild.1.trans hpop.1, hpop.2⟩

end HeapFacts

section MainSort

variable {α : Type} [Inhabited α] {less : α → α → Bool} {key : α → Int}

/-- lget agrees with List.get inside the bounds. -/
theorem lget_get (l : List α) {i : Nat} (h : i < l.length) :
    lget l i = l.get ⟨i, h⟩ := by
  simp only [lget, List.get?_eq_get h, Option.getD_some]

/-- Sorted halves around a dominating middle element glue to a sorted
range. -/
theorem sorted_glue (hless : ∀ x y, less x y = decide (key x < key y))
    {l : List α} {a b mid : Nat} (hmid1 : a ≤ mid) (hmid2 : mid < b)
    (hL : sortedRange less l a mid) (hR : sortedRange less l (mid + 1) b)
    (hlo : ∀ k, a ≤ k → k < mid → key (lget l k) ≤ key (lget l mid))
    (hhi : ∀ k, mid < k → k < b → key (lget l mid) ≤ key (lget l k)) :
    sortedRange less l a b := by
  intro i j h1 h2 h3
  rw [less_false_iff hless]
  by_cases hjm : j < mid
  · exact (less_false_iff hless _ _).mp (hL i j h1 h2 hjm)
  · by_cases him : mid < i
    · exact (less_false_iff hless _ _).mp (hR i j (by omega) h2 h3)
    · have hi' : key (lget l i) ≤ key (lget l mid) := by
        by_cases hieq : i = mid
        · rw [hieq]
        · exact hlo i h1 (by omega)
      have hj' : key (lget l mid) ≤ key (lget l j) := by
        by_cases hjeq : j = mid
        · rw [hjeq]
        · exact hhi j (by omega) h3
      omega

/-- pdqsort_func: with enough fuel (the range length bounds the recursion
and iteration nesting), the range [a, b) comes out sorted, by a
rearrangement of [a, b) only, under the loop invariant that the element
before a (when the range is proper) bounds the range from below. -/
theorem pdqsortGo_spec (hless : ∀ x y, less x y = decide (key x < key y)) :
    ∀ (fuel : Nat) (l : List α) (a b limit : Nat) (wb wp : Bool),
    b - a ≤ fuel → b ≤ l.length → PredBound less l a b →
    RangePerm a b l (pdqsortGo less fuel l a b limit wb wp) ∧
    sortedRange less (pdqsortGo less fuel l a b limit wb wp) a b := by
  intro fuel
  induction fuel with
  | zero =>
    intro l a b limit wb wp hf hb hPred
    constructor
    · exact RangePerm.refl a b l
    · intro i j h1 h2 h3
      exfalso
      omega
  | succ f ihf =>
    intro l a b limit wb wp hf hb hPred
    simp only [pdqsortGo]
    by_cases h12 : b - a ≤ 12
    · rw [if_pos h12]
      obtain ⟨hS, hP⟩ := insertionSortGo_spec hless l hb
      exact ⟨hP, hS⟩
    · rw [if_neg h12]
      by_cases hlim : limit = 0
      · rw [if_pos hlim]
        exact heapSortGo_spec hless l (by omega) hb
      · rw [if_neg hlim]
        set l0 := if wb = false then breakPatternsGo l a b else l with hl0
        set limit1 := if wb = false then limit - 1 else limit with hlim1
        have hperm0 : RangePerm a b l l0 := by
          rw [hl0]
          by_cases hwb : wb = false
          · rw [if_pos hwb]
            exact breakPatternsGo_perm l (by omega) hb
          · rw [if_neg hwb]
            exact RangePerm.refl a b l
        have hlen0 : l0.length = l.length := hperm0.1
        have hpred0 : PredBound less l0 a b := hPred.perm hperm0
        rcases hcp : choosePivotGo less l0 a b with ⟨pivot0, hint0⟩
        dsimp only
        have hpb := choosePivotGo_bounds less l0 (show 13 ≤ b - a by omega)
        rw [hcp] at hpb
        dsimp only at hpb
        set l1 := if hint0 = SortedHint.decreasing then reverseRangeGo l0 a b else l0
          with hl1v
        set pivot1 := if hint0 = SortedHint.decreasing then b - 1 - (pivot0 - a)
          else pivot0 with hp1v
        have hperm1 : RangePerm a b l0 l1 := by
          rw [hl1v]
          by_cases hd : hint0 = SortedHint.decreasing
          · rw [if_pos hd]
            exact reverseRangeGo_perm l0 (by omega) (by omega)
          · rw [if_neg hd]
            exact RangePerm.refl a b l0
        have hpiv1 : a ≤ pivot1 ∧ pivot1 < b := by
          rw [hp1v]
          by_cases hd : hint0 = SortedHint.decreasing
          · rw [if_pos hd]
            omega
          · rw [if_neg hd]
            omega
        have hlen1 : l1.length = l.length := by
          rw [hperm1.1, hlen0]
        have hpred1 : PredBound less l1 a b := hpred0.perm hperm1
        have hmain : ∀ l2 : List α, b ≤ l2.length → PredBound less l2 a b →
            RangePerm a b l2
              (if 0 < a ∧ less (lget l2 (a - 1)) (lget l2 pivot1) = false then
                (let (l3, mid) := partitionEqualGo less l2 a b pivot1
                 pdqsortGo less f l3 mid b limit1 wb wp)
               else
                (let (l3, mid, alreadyPartitioned) := partitionGo less l2 a b pivot1
                 if mid - a < b - mid then
                   pdqsortGo less f (pdqsortGo less f l3 a mid limit1 true true)
                     (mid + 1) b limit1
                     (decide (min (mid - a) (b - mid) ≥ (b - a) / 8)) alreadyPartitioned
                 else
                   pdqsortGo less f (pdqsortGo less f l3 (mid + 1) b limit1 true true)
                     a mid limit1
                     (decide (min (mid - a) (b - mid) ≥ (b - a) / 8)) alreadyPartitioned)) ∧
            sortedRange less
              (if 0 < a ∧ less (lget l2 (a - 1)) (lget l2 pivot1) = false then
                (let (l3, mid) := partitionEqualGo less l2 a b pivot1
                 pdqsortGo less f l3 mid b limit1 wb wp)
               else
                (let (l3, mid, alreadyPartitioned) := partitionGo less l2 a b pivot1
                 if mid - a < b - mid then
                   pdqsortGo less f (pdqsortGo less f l3 a mid limit1 true true)
                     (mid + 1) b limit1
                     (decide (min (mid - a) (b - mid) ≥ (b - a) / 8)) alreadyPartitioned
                 else
                   pdqsortGo less f (pdqsortGo less f l3 (mid + 1) b limit1 true true)
                     a mid limit1
                     (decide (min (mid - a) (b - mid) ≥ (b - a) / 8)) alreadyPartitioned))
              a b := by
          intro l2 hblen hpred2
          by_cases hpeq : 0 < a ∧ less (lget l2 (a - 1)) (lget l2 pivot1) = false
          · rw [if_pos hpeq]
            rcases hpe : partitionEqualGo less l2 a b pivot1 with ⟨l3, mid⟩
            dsimp only
            have hspec := partitionEqualGo_spec less l2 (show a < b by omega)
              (by omega) hpiv1.1 hpiv1.2
            rw [hpe] at hspec
            dsimp only at hspec
            obtain ⟨hperm3, hmid1, hmid2, hroot, hle, hgt⟩ := hspec
            have hpred3 : PredBound less l3 a b := hpred2.perm hperm3
            have hpv : key (lget l2 pivot1) ≤ key (lget l2 (a - 1)) :=
              (less_false_iff hless _ _).mp hpeq.2
            have heqv : ∀ k, a ≤ k → k < mid → key (lget l3 k) = key (lget l2 pivot1) := by
              intro k h1 h2
              have hub : key (lget l3 k) ≤ key (lget l2 pivot1) := by
                by_cases hka : k = a
                · rw [hka, hroot]
                · exact (less_false_iff hless _ _).mp (hle k (by omega) h2)
              have hl3pred : lget l3 (a - 1) = lget l2 (a - 1) :=
                hperm3.2.1 _ (Or.inl (by omega))
              have hlb := hpred3 hpeq.1 k h1 (by omega)
              rw [less_false_iff hless, hl3pred] at hlb
              omega
            have hm1 : key (lget l3 (mid - 1)) ≤ key (lget l2 pivot1) := by
              have := heqv (mid - 1) (by omega) (by omega)
              omega
            have hpredR : PredBound less l3 mid b := by
              intro h0 i h1 h2
              rw [less_false_iff hless]
              have h3 := (less_true_iff hless _ _).mp (hgt i h1 h2)
              omega
            have hres := ihf l3 mid b limit1 wb wp (by omega)
              (by rw [hperm3.1]; omega) hpredR
            have hresval : ∀ k, k < mid →
                lget (pdqsortGo less f l3 mid b limit1 wb wp) k = lget l3 k :=
              fun k hk => hres.1.2.1 k (Or.inl hk)
            have hresgt : ∀ k, mid ≤ k → k < b →
                key (lget l2 pivot1) <
                  key (lget (pdqsortGo less f l3 mid b limit1 wb wp) k) := by
              intro k h1 h2
              refine hres.1.2.2 (fun x => key (lget l2 pivot1) < key x) ?_ k h1 h2
              intro k' h1' h2'
              exact (less_true_iff hless _ _).mp (hgt k' h1' h2')
            constructor
            · exact hperm3.trans (hres.1.mono (by omega) (le_refl b))
            · intro i j h1 h2 h3
              rw [less_false_iff hless]
              by_cases hjm : j < mid
              · rw [hresval i (by omega), hresval j (by omega), heqv i h1 (by omega),
                  heqv j (by omega) hjm]
              · by_cases him : i < mid
                · rw [hresval i (by omega), heqv i h1 him]
                  exact le_of_lt (hresgt j (by omega) h3)
                · exact (less_false_iff hless _ _).mp (hres.2 i j (by omega) h2 h3)
          · rw [if_neg hpeq]
            rcases hpt : partitionGo less l2 a b pivot1 with ⟨l3, mid, alreadyP⟩
            dsimp only
            have hspec := partitionGo_spec less l2 (show a < b by omega)
              (by omega) hpiv1.1 hpiv1.2
            rw [hpt] at hspec
            dsimp only at hspec
            obtain ⟨hperm3, hmid1, hmid2, hmidv, hlt, hge⟩ := hspec
            have hpred3 : PredBound less l3 a b := hpred2.perm hperm3
            have hlen3 : b ≤ l3.length := by
              rw [hperm3.1]
              omega
            by_cases hLR : mid - a < b - mid
            · rw [if_pos hLR]
              have hpredL : PredBound less l3 a mid := fun h0 i h1 h2 =>
                hpred3 h0 i h1 (by omega)
              obtain ⟨hperm4, hsort4⟩ := ihf l3 a mid limit1 true true (by omega)
                (by omega) hpredL
              have hmid4 : lget (pdqsortGo less f l3 a mid limit1 true true) mid =
                  lget l2 pivot1 := by
                rw [hperm4.2.1 mid (Or.inr (le_refl mid)), hmidv]
              have hup4 : ∀ k, mid < k → k < b → key (lget l2 pivot1) ≤
                  key (lget (pdqsortGo less f l3 a mid limit1 true true) k) := by
                intro k h1 h2
                rw [hperm4.2.1 k (Or.inr (by omega))]
                exact (less_false_iff hless _ _).mp (hge k h1 h2)
              have hlow4 : ∀ k, a ≤ k → k < mid →
                  key (lget (pdqsortGo less f l3 a mid limit1 true true) k) <
                    key (lget l2 pivot1) := by
                intro k h1 h2
                refine hperm4.2.2 (fun x => key x < key (lget l2 pivot1)) ?_ k h1 h2
                intro k' h1' h2'
                exact (less_true_iff hless _ _).mp (hlt k' h1' h2')
              have hpredR : PredBound less (pdqsortGo less f l3 a mid limit1 true true)
                  (mid + 1) b := by
                intro h0 i h1 h2
                rw [less_false_iff hless, show mid + 1 - 1 = mid from rfl, hmid4]
                exact hup4 i (by omega) h2
              obtain ⟨hperm5, hsort5⟩ := ihf (pdqsortGo less f l3 a mid limit1 true true)
                (mid + 1) b limit1 (decide (min (mid - a) (b - mid) ≥ (b - a) / 8))
                alreadyP (by omega) (by rw [hperm4.1]; omega) hpredR
              have hresval : ∀ k, k ≤ mid →
                  lget (pdqsortGo less f (pdqsortGo less f l3 a mid limit1 true true)
                      (mid + 1) b limit1
                      (decide (min (mid - a) (b - mid) ≥ (b - a) / 8)) alreadyP) k =
                    lget (pdqsortGo less f l3 a mid limit1 true true) k :=
                fun k hk => hperm5.2.1 k (Or.inl (by omega))
              have hsortL := sortedRange_of_disjoint hsort4 hperm5 (Or.inl (by omega))
              have hresmid : lget (pdqsortGo less f
                    (pdqsortGo less f l3 a mid limit1 true true) (mid + 1) b limit1
                    (decide (min (mid - a) (b - mid) ≥ (b - a) / 8)) alreadyP) mid =
                  lget l2 pivot1 := by
                rw [hresval mid (le_refl mid), hmid4]
              have hreshi : ∀ k, mid < k → k < b → key (lget l2 pivot1) ≤
                  key (lget (pdqsortGo less f (pdqsortGo less f l3 a mid limit1 true true)
                      (mid + 1) b limit1
                      (decide (min (mid - a) (b - mid) ≥ (b - a) / 8)) alreadyP) k) := by
                intro k h1 h2
                refine hperm5.2.2 (fun x => key (lget l2 pivot1) ≤ key x) ?_ k (by omega) h2
                intro k' h1' h2'
                exact hup4 k' (by omega) h2'
              constructor
              · exact (hperm3.trans (hperm4.mono (le_refl a) (by omega))).trans
                  (hperm5.mono (by omega) (le_refl b))
              · refine sorted_glue hless hmid1 hmid2 hsortL hsort5 ?_ ?_
                · intro k h1 h2
                  rw [hresval k (by omega), hresmid]
                  exact le_of_lt (hlow4 k h1 h2)
                · intro k h1 h2
                  rw [hresmid]
                  exact hreshi k h1 h2
            · rw [if_neg hLR]
              have hpredRB : PredBound less l3 (mid + 1) b := by
                intro h0 i h1 h2
                rw [less_false_iff hless, show mid + 1 - 1 = mid from rfl, hmidv]
                exact (less_false_iff hless _ _).mp (hge i (by omega) h2)
              obtain ⟨hperm4, hsort4⟩ := ihf l3 (mid + 1) b limit1 true true (by omega)
                (by omega) hpredRB
              have hmid4 : lget (pdqsortGo less f l3 (mid + 1) b limit1 true true) mid =
                  lget l2 pivot1 := by
                rw [hperm4.2.1 mid (Or.inl (by omega)), hmidv]
              have hlow4 : ∀ k, a ≤ k → k < mid →
                  key (lget (pdqsortGo less f l3 (mid + 1) b limit1 true true) k) <
                    key (lget l2 pivot1) := by
                intro k h1 h2
                rw [hperm4.2.1 k (Or.inl (by omega))]
                exact (less_true_iff hless _ _).mp (hlt k h1 h2)
              have hup4 : ∀ k, mid < k → k < b → key (lget l2 pivot1) ≤
                  key (lget (pdqsortGo less f l3 (mid + 1) b limit1 true true) k) := by
                intro k h1 h2
                refine hperm4.2.2 (fun x => key (lget l2 pivot1) ≤ key x) ?_ k (by omega) h2
                intro k' h1' h2'
                exact (less_false_iff hless _ _).mp (hge k' (by omega) h2')
              have hpred4 : PredBound less (pdqsortGo less f l3 (mid + 1) b limit1 true true)
                  a mid := by
                intro h0 i h1 h2
                rw [hperm4.2.1 i (Or.inl (by omega)), hperm4.2.1 (a - 1) (Or.inl (by omega))]
                exact hpred3 h0 i h1 (by omega)
              obtain ⟨hperm5, hsort5⟩ := ihf
                (pdqsortGo less f l3 (mid + 1) b limit1 true true) a mid limit1
                (decide (min (mid - a) (b - mid) ≥ (b - a) / 8)) alreadyP (by omega)
                (by rw [hperm4.1]; omega) hpred4
              have hresval : ∀ k, mid ≤ k →
                  lget (pdqsortGo less f (pdqsortGo less f l3 (mid + 1) b limit1 true true)
                      a mid limit1
                      (decide (min (mid - a) (b - mid) ≥ (b - a) / 8)) alreadyP) k =
                    lget (pdqsortGo less f l3 (mid + 1) b limit1 true true) k :=
                fun k hk => hperm5.2.1 k (Or.inr hk)
              have hsortR := sortedRange_of_disjoint hsort4 hperm5 (Or.inr (by omega))
              have hresmid : lget (pdqsortGo less f
                    (pdqsortGo less f l3 (mid + 1) b limit1 true true) a mid limit1
                    (decide (min (mid - a) (b - mid) ≥ (b - a) / 8)) alreadyP) mid =
                  lget l2 pivot1 := by
                rw [hresval mid (le_refl mid), hmid4]
              have hreslo : ∀ k, a ≤ k → k < mid →
                  key (lget (pdqsortGo less f
                      (pdqsortGo less f l3 (mid + 1) b limit1 true true) a mid limit1
                      (decide (min (mid - a) (b - mid) ≥ (b - a) / 8)) alreadyP) k) ≤
                    key (lget l2 pivot1) := by
                intro k h1 h2
                refine hperm5.2.2 (fun x => key x ≤ key (lget l2 pivot1)) ?_ k h1 h2
                intro k' h1' h2'
                exact le_of_lt (hlow4 k' h1' h2')
              constructor
              · exact (hperm3.trans (hperm4.mono (by omega) (le_refl b))).trans
                  (hperm5.mono (le_refl a) (by omega))
              · refine sorted_glue hless hmid1 hmid2 hsort5 hsortR ?_ ?_
                · intro k h1 h2
                  rw [hresmid]
                  exact hreslo k h1 h2
                · intro k h1 h2
                  rw [hresmid, hresval k (by omega)]
                  exact hup4 k h1 h2
        by_cases ht : wb = true ∧ wp = true ∧
            (if hint0 = SortedHint.decreasing then SortedHint.increasing else hint0) =
              SortedHint.increasing
        · rw [if_pos ht]
          by_cases hsP : (pInsSortGo less l1 a b).2 = true
          · rw [if_pos hsP]
            obtain ⟨hpp, hps⟩ := pInsSortGo_spec hless l1 (by omega) (by omega) hpred1
            exact ⟨(hperm0.trans hperm1).trans hpp, hps hsP⟩
          · rw [if_neg hsP]
            obtain ⟨hpp, _⟩ := pInsSortGo_spec hless l1 (by omega) (by omega) hpred1
            obtain ⟨hA, hB⟩ := hmain (pInsSortGo less l1 a b).1
              (by rw [hpp.1]; omega) (hpred1.perm hpp)
            exact ⟨((hperm0.trans hperm1).trans hpp).trans hA, hB⟩
        · rw [if_neg ht]
          dsimp only
          rw [if_neg Bool.false_ne_true]
          obtain ⟨hA, hB⟩ := hmain l1 (by omega) hpred1
          exact ⟨(hperm0.trans hperm1).trans hA, hB⟩

/-- sort.Slice output is pairwise non-inverted for the comparator, for
every input list. -/
theorem sortSlice_pairwise (hless : ∀ x y, less x y = decide (key x < key y))
    (l : List α) :
    List.Pairwise (fun x y => less y x = false) (sortSlice less l) := by
  obtain ⟨hperm, hsort⟩ := pdqsortGo_spec hless (l.length + 2) l 0 l.length
    (bitsLen l.length) true true (by omega) (le_refl _)
    (fun h0 => absurd h0 (by omega))
  have hfold : sortSlice less l =
      pdqsortGo less (l.length + 2) l 0 l.length (bitsLen l.length) true true := rfl
  rw [hfold, List.pairwise_iff_get]
  intro i j hij
  have hlen : (pdqsortGo less (l.length + 2) l 0 l.length (bitsLen l.length)
      true true).length = l.length := hperm.1
  have hs := hsort i j (by omega) hij (by have := j.isLt; omega)
  rw [lget_get _ i.isLt, lget_get _ j.isLt] at hs
  exact hs

end MainSort

end GoSortProof

/-- The builder loop of FormatAsMarkdownTable appends exactly the rows, in
order. -/
theorem foldl_tableRow (l : List EmployeeInfo) (s : String) :
    l.foldl (fun acc e => acc ++ tableRow e) s = s ++ rowsCat l := by
  induction l generalizing s with
  | nil => simp [rowsCat]
  | cons e rest ih => simp [rowsCat, List.foldl_cons, ih, String.append_assoc]

/-- Claim C7: for the empty record list, both the list formatter and the
table formatter return the same fixed no-results message and a nil error —
never an empty string and never an error. -/
theorem claim7_empty_formatting :
    FormatResults [] = some noResultsMsg ∧
    FormatAsMarkdownTable [] = some noResultsMsg ∧
    noResultsMsg ≠ "" :=
  ⟨rfl, rfl, by decide⟩

/-- Claim C8: for every non-empty record list, table-mode output is the
fixed header row "| Name | Title | Email | Status | Deactivation Date |", a
separator row, then exactly one row per record in input order; the Status
cell is "Deactivated" exactly when the record's flag is set and "Active"
otherwise, and the Deactivation Date cell is empty for every active
record. -/
theorem claim8_table_format :
    (∀ (e : EmployeeInfo) (rest : List EmployeeInfo),
      FormatAsMarkdownTable (e :: rest) =
        some ("| Name | Title | Email | Status | Deactivation Date |\n|------|-------|-------|--------|------------------|\n"
          ++ rowsCat (e :: rest))) ∧
    (∀ e : EmployeeInfo, rowStatus e = (if e.Deactivated then "Deactivated" else "Active")) ∧
    (∀ e : EmployeeInfo, e.Deactivated = false → rowStatus e = "Active" ∧ rowDate e = "") := by
  refine ⟨fun e rest => ?_, fun e => rfl, fun e he => ?_⟩
  · have hlit :
        ("| Name | Title | Email | Status | Deactivation Date |\n|------|-------|-------|--------|------------------|\n" : String) =
        tableHeader := by decide
    simp [FormatAsMarkdownTable, foldl_tableRow, hlit, rowsCat, String.append_assoc]
  · simp [rowStatus, rowDate, he]

/-- Witness for claim C8 at a concrete active record. -/
theorem claim8_table_format_witness :
    rowStatus ⟨"Jane", "Roe", "", "", false, ""⟩ = "Active" ∧
    rowDate ⟨"Jane", "Roe", "", "", false, ""⟩ = "" :=
  claim8_table_format.2.2 ⟨"Jane", "Roe", "", "", false, ""⟩ rfl

/-- Claim C1: the status filter is chosen by precedence — a query containing
"deactivat" or "terminat" keeps only deactivated records; otherwise a query
containing "active" keeps only active records; otherwise every record is
kept — and the result is always a subsequence of the input whose elements
match the selected filter. -/
theorem claim1_status_filter (q : String) (coll : List RawRecord) :
    List.Sublist (filterByStatus (statusFilterOf (goToLower q)) coll) coll ∧
    ((goContains (goToLower q) "deactivat" = true ∨ goContains (goToLower q) "terminat" = true) →
      statusFilterOf (goToLower q) = StatusFilter.deactivated ∧
      ∀ r ∈ filterByStatus (statusFilterOf (goToLower q)) coll, r.info.Deactivated = true) ∧
    (goContains (goToLower q) "deactivat" = false → goContains (goToLower q) "terminat" = false →
      goContains (goToLower q) "active" = true →
      statusFilterOf (goToLower q) = StatusFilter.active ∧
      ∀ r ∈ filterByStatus (statusFilterOf (goToLower q)) coll, r.info.Deactivated = false) ∧
    (goContains (goToLower q) "deactivat" = false → goContains (goToLower q) "terminat" = false →
      goContains (goToLower q) "active" = false →
      filterByStatus (statusFilterOf (goToLower q)) coll = coll) := by
  refine ⟨?_, ?_, ?_, ?_⟩
  · rcases hf : statusFilterOf (goToLower q) with _ | _ | _ <;>
      simp only [filterByStatus] <;>
      first
        | exact List.Sublist.refl coll
        | exact List.filter_sublist coll
  · intro h
    have hf : statusFilterOf (goToLower q) = StatusFilter.deactivated := by
      rcases h with h | h <;> simp [statusFilterOf, h]
    refine ⟨hf, fun r hr => ?_⟩
    rw [hf] at hr
    simpa using (List.mem_filter.mp hr).2
  · intro h1 h2 h3
    have hf : statusFilterOf (goToLower q) = StatusFilter.active := by
      simp [statusFilterOf, h1, h2, h3]
    refine ⟨hf, fun r hr => ?_⟩
    rw [hf] at hr
    simpa using (List.mem_filter.mp hr).2
  · intro h1 h2 h3
    have hf : statusFilterOf (goToLower q) = StatusFilter.all := by
      simp [statusFilterOf, h1, h2, h3]
    rw [hf]
    rfl

/-- Witness for claim C1: the query "Deactivated list" selects the
deactivated filter and keeps only deactivated records. -/
theorem claim1_status_filter_witness :
    statusFilterOf (goToLower "Deactivated list") = StatusFilter.deactivated ∧
    ∀ r ∈ filterByStatus (statusFilterOf (goToLower "Deactivated list")) johnDoeActive,
      r.info.Deactivated = true :=
  (claim1_status_filter "Deactivated list" johnDoeActive).2.1 (Or.inl (by decide))

/-- Claim C6: any fixed lookup phrase (or the word "find") makes
single-person-lookup detection return true, but a query containing
"find last", "find top", "find the last" or "find the top" and none of the
fixed phrases is rejected — in particular "find last 5" does not trigger
the lookup. -/
theorem claim6_lookup_detection :
    (∀ q p, p ∈ specificPatterns → goContains q p = true →
      isSpecificEmployeeSearch q = true) ∧
    (∀ q, (goContains q "find last" = true ∨ goContains q "find top" = true ∨
           goContains q "find the last" = true ∨ goContains q "find the top" = true) →
      (∀ p ∈ specificPatterns, goContains q p = false) →
      isSpecificEmployeeSearch q = false) ∧
    (∀ q, goContains q "find" = true →
      goContains q "find last" = false → goContains q "find top" = false →
      goContains q "find the last" = false → goContains q "find the top" = false →
      isSpecificEmployeeSearch q = true) ∧
    isSpecificEmployeeSearch "find last 5" = false := by
  refine ⟨?_, ?_, ?_, by decide⟩
  · intro q p hp hc
    have hany : (specificPatterns.any fun p => goContains q p) = true :=
      List.any_eq_true.mpr ⟨p, hp, hc⟩
    simp [isSpecificEmployeeSearch, hany]
  · intro q h hnone
    have hany : (specificPatterns.any fun p => goContains q p) = false := by
      simp only [List.any_eq_false]
      intro p hp
      simp [hnone p hp]
    have hfind : goContains q "find" = true := by
      rcases h with h | h | h | h <;> exact goContains_of_isInfix (by decide) h
    have hor : (goContains q "find last" || goContains q "find top" ||
                goContains q "find the last" || goContains q "find the top") = true := by
      rcases h with h | h | h | h <;> simp [h]
    simp [isSpecificEmployeeSearch, hany, hfind, hor]
  · intro q hfind h1 h2 h3 h4
    by_cases hany : (specificPatterns.any fun p => goContains q p) = true
    · simp [isSpecificEmployeeSearch, hany]
    · have hany' : (specificPatterns.any fun p => goContains q p) = false :=
        Bool.eq_false_iff.mpr hany
      simp [isSpecificEmployeeSearch, hany', hfind, h1, h2, h3, h4]

/-- Witness for claim C6: "who is bob" triggers the lookup; "find top 3"
is excluded by the counting pattern. -/
theorem claim6_lookup_detection_witness :
    isSpecificEmployeeSearch "who is bob" = true ∧
    isSpecificEmployeeSearch "find top 3" = false :=
  ⟨claim6_lookup_detection.1 "who is bob" "who is" (by decide) (by decide),
   claim6_lookup_detection.2.1 "find top 3" (Or.inr (Or.inl (by decide)))
     (by decide)⟩

/-- An applied "last/top/latest N" pattern always carries a positive limit
strictly below the current length. -/
theorem tryLimitA_bounds {len k : Nat} {w1 w2 : String}
    (h : tryLimitA len w1 w2 = some k) : 0 < k ∧ k < len := by
  by_cases hw : w1 = "last" ∨ w1 = "top" ∨ w1 = "latest"
  · rcases hg : goAtoi w2 with _ | n
    · simp [tryLimitA, hw, hg] at h
    · by_cases hc : 0 < n ∧ n < (len : Int)
      · have hk : n.toNat = k := by simpa [tryLimitA, hw, hg, hc] using h
        rw [← hk]
        omega
      · simp [tryLimitA, hw, hg, hc] at h
  · simp [tryLimitA, hw] at h

/-- An applied "N employee(s)" pattern always carries a positive limit
strictly below the current length. -/
theorem tryLimitB_bounds {len k : Nat} {w1 w2 : String}
    (h : tryLimitB len w1 w2 = some k) : 0 < k ∧ k < len := by
  by_cases hw : w2 = "employees" ∨ w2 = "employee"
  · rcases hg : goAtoi w1 with _ | n
    · simp [tryLimitB, hw, hg] at h
    · by_cases hc : 0 < n ∧ n < (len : Int)
      · have hk : n.toNat = k := by simpa [tryLimitB, hw, hg, hc] using h
        rw [← hk]
        omega
      · simp [tryLimitB, hw, hg, hc] at h
  · simp [tryLimitB, hw] at h

/-- Claim C4 counterexample: on the query "top 10 last 2" over five
records, the first successful pattern is "top 10", and with 10 ≥ 5 the
claim says the result is left unchanged — but the code keeps scanning and
truncates to the first 2 records. -/
theorem claim4_counterexample :
    firstPatternNum (goFields "top 10 last 2") = some 10 ∧
    fiveRecords.length = 5 ∧
    claimedLimitStage (goFields "top 10 last 2") fiveRecords = fiveRecords ∧
    applyLimit (goFields "top 10 last 2") fiveRecords = fiveRecords.take 2 ∧
    applyLimit (goFields "top 10 last 2") fiveRecords ≠ fiveRecords := by
  decide

/-- Claim C4 amended: the scan does stop at the first pattern it can apply,
but a textual match whose number is ≥ the current length is skipped and
scanning continues (a later smaller match may still truncate); the applied
limit is the first pattern number that is positive and strictly below the
length, it truncates to that prefix, and when no such pattern exists the
result is unchanged. -/
theorem claim4_amended_limit (ws : List String) (l : List EmployeeInfo) :
    applyLimit ws l =
      (match firstApplicableLimit l.length ws with
       | some n => l.take n
       | none => l) ∧
    (∀ n, firstApplicableLimit l.length ws = some n → 0 < n ∧ n < l.length) := by
  induction ws with
  | nil => exact ⟨rfl, by intro n h; simp [firstApplicableLimit] at h⟩
  | cons w1 tail ih =>
    cases tail with
    | nil => exact ⟨rfl, by intro n h; simp [firstApplicableLimit] at h⟩
    | cons w2 rest =>
      constructor
      · rcases hA : tryLimitA l.length w1 w2 with _ | k
        · rcases hB : tryLimitB l.length w1 w2 with _ | k
          · simpa [applyLimit, limitScan, firstApplicableLimit, hA, hB] using ih.1
          · simp [applyLimit, limitScan, firstApplicableLimit, hA, hB]
        · simp [applyLimit, limitScan, firstApplicableLimit, hA]
      · intro n h
        rw [firstApplicableLimit] at h
        rcases hA : tryLimitA l.length w1 w2 with _ | k
        · rcases hB : tryLimitB l.length w1 w2 with _ | k
          · rw [hA, hB] at h
            exact ih.2 n h
          · rw [hA, hB] at h
            injection h with hk
            subst hk
            exact tryLimitB_bounds hB
        · rw [hA] at h
          injection h with hk
          subst hk
          exact tryLimitA_bounds hA

/-- Witness for the amended claim C4: "last 2" over five records keeps the
first two. -/
theorem claim4_amended_limit_witness :
    applyLimit (goFields "last 2") fiveRecords = fiveRecords.take 2 ∧
    (0 < 2 ∧ 2 < fiveRecords.length) :=
  ⟨by simpa using (claim4_amended_limit (goFields "last 2") fiveRecords).1,
   (claim4_amended_limit (goFields "last 2") fiveRecords).2 2 (by decide)⟩

/-- When every record of the collection decodes, the per-pair decode step
always succeeds, on exactly the matched records. -/
theorem decodeAll_matched {coll : List RawRecord}
    (h : ∀ r ∈ coll, r.decodeOk = true) (w1 w2 : String) :
    decodeAll (matchedOf coll w1 w2) =
      some ((matchedOf coll w1 w2).map (fun r => r.info)) := by
  unfold decodeAll
  have hall : (matchedOf coll w1 w2).all (fun r => r.decodeOk) = true := by
    rw [List.all_eq_true]
    intro r hr
    exact h r (List.mem_of_mem_filter hr)
  simp [hall]

/-- Over an all-decodable collection, the pair scan answers exactly at the
first accepted pair, with the narrative of its first match; `none` from
`firstHit` means the not-found message. -/
theorem pairScan_firstHit {coll : List RawRecord}
    (hdec : ∀ r ∈ coll, r.decodeOk = true) (ws : List String) :
    (∀ w1 w2, firstHit coll ws = some (w1, w2) →
      (3 ≤ w1.length ∧ 3 ≤ w2.length) ∧
      ∃ emp rest, matchedOf coll w1 w2 = emp :: rest ∧
        pairScan coll ws = some (narrativeOf emp.info)) ∧
    (firstHit coll ws = none → pairScan coll ws = some notFoundMsg) := by
  induction ws with
  | nil => exact ⟨fun w1 w2 h => by simp [firstHit] at h, fun _ => rfl⟩
  | cons w1 tail ih =>
    cases tail with
    | nil => exact ⟨fun u1 u2 h => by simp [firstHit] at h, fun _ => rfl⟩
    | cons w2 rest =>
      by_cases hshort : w1.length < 3 ∨ w2.length < 3
      · constructor
        · intro u1 u2 h
          rw [firstHit, if_pos hshort] at h
          have hps : pairScan coll (w1 :: w2 :: rest) = pairScan coll (w2 :: rest) := by
            rw [pairScan, if_pos hshort]
          rw [hps]
          exact ih.1 u1 u2 h
        · intro h
          rw [firstHit, if_pos hshort] at h
          rw [pairScan, if_pos hshort]
          exact ih.2 h
      · by_cases hm : matchedOf coll w1 w2 = []
        · constructor
          · intro u1 u2 h
            rw [firstHit, if_neg hshort, if_pos hm] at h
            have hps : pairScan coll (w1 :: w2 :: rest) = pairScan coll (w2 :: rest) := by
              rw [pairScan, if_neg hshort, decodeAll_matched hdec, hm]
              rfl
            rw [hps]
            exact ih.1 u1 u2 h
          · intro h
            rw [firstHit, if_neg hshort, if_pos hm] at h
            rw [pairScan, if_neg hshort, decodeAll_matched hdec, hm]
            exact ih.2 h
        · rcases hme : matchedOf coll w1 w2 with _ | ⟨emp, tl⟩
          · exact absurd hme hm
          · constructor
            · intro u1 u2 h
              rw [firstHit, if_neg hshort, if_neg hm] at h
              injection h with hpair
              have h1 : w1 = u1 := congrArg Prod.fst hpair
              have h2 : w2 = u2 := congrArg Prod.snd hpair
              subst h1
              subst h2
              refine ⟨⟨by omega, by omega⟩, emp, tl, hme, ?_⟩
              rw [pairScan, if_neg hshort, decodeAll_matched hdec, hme]
              rfl
            · intro h
              rw [firstHit, if_neg hshort, if_neg hm] at h
              exact absurd h (by simp)

/-- Claim C5: for the single-person lookup — adjacent word pairs are scanned
left to right, pairs with a word shorter than 3 characters are skipped, a
record matches when its first name contains the first word OR its last name
contains the second word (case-insensitive substring), the first pair with
at least one match is used, and the narrative comes from only the first
matched record of that pair.  (Stated over collections whose records all
decode, the setting the claim describes.) -/
theorem claim5_person_lookup (coll : List RawRecord) (q : String)
    (hdec : ∀ r ∈ coll, r.decodeOk = true) :
    (∀ w1 w2 r, r ∈ matchedOf coll w1 w2 ↔
      (r ∈ coll ∧ (ciContains r.info.FirstName w1 || ciContains r.info.LastName w2) = true)) ∧
    (∀ w1 w2, firstHit coll (goFields q) = some (w1, w2) →
      (3 ≤ w1.length ∧ 3 ≤ w2.length) ∧
      ∃ emp rest, matchedOf coll w1 w2 = emp :: rest ∧
        findSpecificEmployee coll q = some (narrativeOf emp.info)) ∧
    (firstHit coll (goFields q) = none →
      findSpecificEmployee coll q = some notFoundMsg) := by
  refine ⟨?_, ?_, ?_⟩
  · intro w1 w2 r
    simp [matchedOf, List.mem_filter]
  · intro w1 w2 h
    exact (pairScan_firstHit hdec (goFields q)).1 w1 w2 h
  · intro h
    exact (pairScan_firstHit hdec (goFields q)).2 h

/-- Witness for claim C5: "who is john doe" finds John Doe — the two first
pairs are skipped (short words), the pair ("john", "doe") matches. -/
theorem claim5_person_lookup_witness :
    (3 ≤ ("john" : String).length ∧ 3 ≤ ("doe" : String).length) ∧
    ∃ emp rest, matchedOf johnDoeActive "john" "doe" = emp :: rest ∧
      findSpecificEmployee johnDoeActive "who is john doe" = some (narrativeOf emp.info) :=
  (claim5_person_lookup johnDoeActive "who is john doe" (by decide)).2.1
    "john" "doe" (by decide)

/-- If every adjacent pair fails (short words, decode failure, or no
candidate), the scan reaches its not-found return. -/
theorem pairScan_allFail {coll : List RawRecord} (ws : List String)
    (h : allPairsFail coll ws = true) : pairScan coll ws = some notFoundMsg := by
  induction ws with
  | nil => rfl
  | cons w1 tail ih =>
    cases tail with
    | nil => rfl
    | cons w2 rest =>
      rw [allPairsFail, Bool.and_eq_true] at h
      by_cases hshort : w1.length < 3 ∨ w2.length < 3
      · rw [pairScan, if_pos hshort]
        exact ih h.2
      · rcases hd : decodeAll (matchedOf coll w1 w2) with _ | l
        · rw [pairScan, if_neg hshort, hd]
          exact ih h.2
        · cases l with
          | nil =>
            rw [pairScan, if_neg hshort, hd]
            exact ih h.2
          | cons e tl =>
            rw [if_neg hshort, hd] at h
            exact absurd h.1 (by simp)

/-- Claim C9: a per-pair decode failure of the matched candidates is
non-fatal — the pair is skipped and the scan continues with the next
adjacent pair — and when every pair is exhausted without a match the lookup
returns the fixed not-found message with a nil error (modelled as `some`,
never `none`). -/
theorem claim9_decode_skip (coll : List RawRecord) :
    (∀ w1 w2 rest, decodeAll (matchedOf coll w1 w2) = none →
      pairScan coll (w1 :: w2 :: rest) = pairScan coll (w2 :: rest)) ∧
    (∀ q, allPairsFail coll (goFields q) = true →
      findSpecificEmployee coll q = some notFoundMsg) := by
  constructor
  · intro w1 w2 rest hd
    by_cases hshort : w1.length < 3 ∨ w2.length < 3
    · rw [pairScan, if_pos hshort]
    · rw [pairScan, if_neg hshort, hd]
  · intro q h
    exact pairScan_allFail (goFields q) h

/-- Witness for claim C9: the John Doe record fails to decode; the matching
pair ("john", "doe") is skipped and the lookup reports not found. -/
theorem claim9_decode_skip_witness :
    pairScan johnDoeBad ["john", "doe"] = pairScan johnDoeBad ["doe"] ∧
    findSpecificEmployee johnDoeBad "who is john doe" = some notFoundMsg :=
  ⟨(claim9_decode_skip johnDoeBad).1 "john" "doe" [] (by decide),
   (claim9_decode_skip johnDoeBad).2 "who is john doe" (by decide)⟩

/-- Claim C10 (implicit): once a query triggers the single-person lookup,
the status filter derived from the query is discarded — every candidate
pair resets the query state and matches the whole collection — so the query
"When was John Doe deactivated" (status keyword: deactivated) over a
collection holding only an active John Doe answers with a narrative whose
record is active. -/
theorem claim10_filter_discarded :
    (∀ (coll : List RawRecord) (query : String),
      isSpecificEmployeeSearch (goToLower query) = true →
      ProcessQuery coll query = findSpecificEmployee coll (goToLower query)) ∧
    statusFilterOf (goToLower "When was John Doe deactivated") = StatusFilter.deactivated ∧
    ProcessQuery johnDoeActive "When was John Doe deactivated" =
      some "Employee: John Doe\nTitle: Engineer\nEmail: john@x.example\nStatus: Active\n" ∧
    goContains "Employee: John Doe\nTitle: Engineer\nEmail: john@x.example\nStatus: Active\n"
      "Status: Active" = true ∧
    (∀ r ∈ johnDoeActive, r.info.Deactivated = false) := by
  refine ⟨?_, by decide, by decide, by decide, by decide⟩
  intro coll query h
  simp [ProcessQuery, h]

/-- Witness for claim C10: a lookup query routes ProcessQuery into the
unfiltered person search. -/
theorem claim10_filter_discarded_witness :
    ProcessQuery johnDoeActive "who is John Doe" =
      findSpecificEmployee johnDoeActive (goToLower "who is John Doe") :=
  claim10_filter_discarded.1 johnDoeActive "who is John Doe" (by decide)

/-- The empty string never parses as a date. -/
theorem goParseDate_empty : goParseDate "" = none := rfl

/-- dateKey on an empty date. -/
theorem dateKey_empty {x : EmployeeInfo} (h : x.DeactivatedDate = "") :
    dateKey x = 2 := by
  simp [dateKey, h]

/-- dateKey on a non-empty unparseable date. -/
theorem dateKey_unparseable {x : EmployeeInfo} (h1 : x.DeactivatedDate ≠ "")
    (h2 : goParseDate x.DeactivatedDate = none) : dateKey x = 1 := by
  simp [dateKey, h1, h2]

/-- dateKey on a parseable date is the negated date code. -/
theorem dateKey_parse {x : EmployeeInfo} {n : Nat}
    (h : goParseDate x.DeactivatedDate = some n) : dateKey x = -(n : Int) := by
  have h1 : x.DeactivatedDate ≠ "" := by
    intro he
    rw [he, goParseDate_empty] at h
    exact Option.noConfusion h
  simp [dateKey, h1, h]

/-- Claim C2: for every record list, sort.Slice's output under the date
comparator is ordered descending by deactivated_date — whatever precedes a
record with a parseable date also has a parseable date, at least as recent
— so empty and unparseable dates sit after all parseable ones; and two
empty dates, two unparseable dates, or two equal parseable dates compare
as equal under the comparator. -/
theorem claim2_sort_order (l : List EmployeeInfo) :
    (∀ i j xj nj, i < j →
      (sortSlice lessDeactivatedDate l).get? j = some xj →
      goParseDate xj.DeactivatedDate = some nj →
      ∃ xi ni, (sortSlice lessDeactivatedDate l).get? i = some xi ∧
        goParseDate xi.DeactivatedDate = some ni ∧ nj ≤ ni) ∧
    (∀ x y : EmployeeInfo,
      ((x.DeactivatedDate = "" ∧ y.DeactivatedDate = "") ∨
       (x.DeactivatedDate ≠ "" ∧ y.DeactivatedDate ≠ "" ∧
        goParseDate x.DeactivatedDate = none ∧ goParseDate y.DeactivatedDate = none) ∨
       (∃ n, goParseDate x.DeactivatedDate = some n ∧
         goParseDate y.DeactivatedDate = some n)) →
      lessDeactivatedDate x y = false ∧ lessDeactivatedDate y x = false) := by
  have hsorted : List.Pairwise (fun x y => lessDeactivatedDate y x = false)
      (sortSlice lessDeactivatedDate l) :=
    sortSlice_pairwise lessDeactivatedDate_eq_key l
  set l' := sortSlice lessDeactivatedDate l with hl'
  constructor
  · intro i j xj nj hij hgj hpj
    have hjl : j < l'.length := by
      by_contra hc
      rw [List.get?_eq_none.mpr (le_of_not_lt hc)] at hgj
      exact absurd hgj (by simp)
    have hil : i < l'.length := lt_trans hij hjl
    have hgi : l'.get? i = some (l'.get ⟨i, hil⟩) := List.get?_eq_get hil
    have hgj' : l'.get? j = some (l'.get ⟨j, hjl⟩) := List.get?_eq_get hjl
    have hxj : l'.get ⟨j, hjl⟩ = xj := by
      rw [hgj'] at hgj
      exact Option.some_injective _ hgj
    have hfalse : lessDeactivatedDate (l'.get ⟨j, hjl⟩) (l'.get ⟨i, hil⟩) = false :=
      List.pairwise_iff_get.mp hsorted ⟨i, hil⟩ ⟨j, hjl⟩ hij
    rw [hxj, lessDeactivatedDate_eq_key] at hfalse
    have hle : dateKey (l'.get ⟨i, hil⟩) ≤ dateKey xj := by
      have := of_decide_eq_false hfalse
      omega
    rw [dateKey_parse hpj] at hle
    by_cases hxe : (l'.get ⟨i, hil⟩).DeactivatedDate = ""
    · rw [dateKey_empty hxe] at hle
      omega
    · rcases hpi : goParseDate (l'.get ⟨i, hil⟩).DeactivatedDate with _ | ni
      · rw [dateKey_unparseable hxe hpi] at hle
        omega
      · refine ⟨l'.get ⟨i, hil⟩, ni, hgi, hpi, ?_⟩
        rw [dateKey_parse hpi] at hle
        omega
  · intro x y h
    have hk : dateKey x = dateKey y := by
      rcases h with ⟨hx, hy⟩ | ⟨hx, hy, hpx, hpy⟩ | ⟨n, hpx, hpy⟩
      · rw [dateKey_empty hx, dateKey_empty hy]
      · rw [dateKey_unparseable hx hpx, dateKey_unparseable hy hpy]
      · rw [dateKey_parse hpx, dateKey_parse hpy]
    rw [lessDeactivatedDate_eq_key, lessDeactivatedDate_eq_key, hk]
    simp

/-- Witness for claim C2: on the four-class scrambled list, the theorem
yields that the record sorted before the 2023-12-31 one holds a parseable
date at least as recent. -/
theorem claim2_sort_order_witness :
    ∃ xi ni, (sortSlice lessDeactivatedDate c2Scrambled).get? 0 = some xi ∧
      goParseDate xi.DeactivatedDate = some ni ∧ 20231231 ≤ ni :=
  (claim2_sort_order c2Scrambled).1
    0 1 ⟨"c", "", "", "", true, "2023-12-31"⟩ 20231231 (by decide) (by decide)
    (by decide)

/-- Claim C3 evaluation: on the 13-record collection, sort.Slice (Go's
pdqsort, embedded as `sortSlice`) reverses the relative order of the tied
records "Bob" and "Dan" (both dated 2023-01-15, comparing as equal): Bob
precedes Dan in the input, Dan precedes Bob in the output.  The output is
otherwise correctly ordered, so a stable sort would have kept Bob first. -/
theorem claim3_unstable_sort_eval :
    sortSlice lessDeactivatedDate c3Input = c3Output ∧
    c3Input.get? 1 = some (mkDeact "Bob" "2023-01-15") ∧
    c3Input.get? 3 = some (mkDeact "Dan" "2023-01-15") ∧
    c3Output.get? 5 = some (mkDeact "Dan" "2023-01-15") ∧
    c3Output.get? 6 = some (mkDeact "Bob" "2023-01-15") ∧
    lessDeactivatedDate (mkDeact "Bob" "2023-01-15") (mkDeact "Dan" "2023-01-15") = false ∧
    lessDeactivatedDate (mkDeact "Dan" "2023-01-15") (mkDeact "Bob" "2023-01-15") = false := by
  decide
